import Mathlib

/-!
Verification of the HScan-Agents-LangGraph regulatory-scan pipeline.

The Python sources are shallowly embedded below.  Strings are Lean `String`s
but every Python string primitive (`strip`, `lower`, `split`, `rstrip`,
`endswith`, `in`, `join`) is modelled by an executable function over the
underlying character list, so that all definitions evaluate.  pandas cells are
modelled by `PyVal` (a real string or the NaN missing-value marker), pandas
data frames by lists of rows, exceptions by `Except String`, and the external
capabilities (the OpenAI chat call, `difflib.SequenceMatcher`'s ratio, the
Playwright fetch, `urljoin`) by explicit outcome parameters, exactly at the
boundaries where the repository calls into them.
-/

set_option maxHeartbeats 1000000

namespace HScan

/-- Characters stripped by Python `str.strip()` (the ASCII whitespace that can
occur in this pipeline's data). -/
def wsChar (c : Char) : Bool :=
  c == ' ' || c == '\n' || c == '\t' || c == '\r'

/-- Strip leading and trailing whitespace from a character list. -/
def stripC (l : List Char) : List Char :=
  List.rdropWhile wsChar (l.dropWhile wsChar)

/-- Model of Python `str.strip()`. -/
def pstrip (s : String) : String :=
  ⟨stripC s.data⟩

/-- Model of Python `str.lower()`. -/
def plower (s : String) : String :=
  ⟨s.data.map Char.toLower⟩

/-- Model of Python `str.endswith(suffix)`. -/
def pendswith (s suffix : String) : Bool :=
  suffix.data.isSuffixOf s.data

/-- Model of the Python containment test `pat in s` on character lists. -/
def containsC (l pat : List Char) : Bool :=
  match l with
  | [] => pat.isEmpty
  | _ :: rest => pat.isPrefixOf l || containsC rest pat

/-- Model of the Python containment test `pat in s`. -/
def pcontains (s pat : String) : Bool :=
  containsC s.data pat.data

/-- Scanner of Python `str.split(sep)` for a non-empty separator: leftmost,
non-overlapping matches; `skip` counts separator characters still to be
consumed after a match was recognised at the head. -/
def psplitGo (sep : List Char) : List Char → Nat → List (List Char)
  | [], _ => [[]]
  | _ :: rest, k + 1 => psplitGo sep rest k
  | c :: rest, 0 =>
    if sep.isPrefixOf (c :: rest) ∧ ¬ sep.isEmpty then
      [] :: psplitGo sep rest (sep.length - 1)
    else
      match psplitGo sep rest 0 with
      | [] => [[c]]
      | seg :: segs => (c :: seg) :: segs

/-- Model of Python `str.split(sep)` on character lists: always returns at
least one segment. -/
def psplitC (sep l : List Char) : List (List Char) :=
  psplitGo sep l 0

/-- Model of Python `str.split(sep)` on strings. -/
def psplit (s sep : String) : List String :=
  (psplitC sep.data s.data).map (fun l => ⟨l⟩)

/-- Model of Python `str.rstrip(c)` for a single character. -/
def prstrip (c : Char) (s : String) : String :=
  ⟨List.rdropWhile (fun d => d == c) s.data⟩

/-- Model of Python `sep.join(parts)`. -/
def pjoin (sep : String) : List String → String
  | [] => ""
  | x :: xs => xs.foldl (fun acc y => acc ++ sep ++ y) x

/-- Model of Python `str.startswith(prefix)`. -/
def pstartswith (s pre : String) : Bool :=
  pre.data.isPrefixOf s.data

/-- First-match lookup in an association list: model of a Python `dict`
lookup / `dict.get` (a parsed JSON object is a dict, so keys are unique;
first-match lookup agrees with it). -/
def alget (obj : List (String × String)) (k : String) : Option String :=
  (obj.find? (fun p => p.1 == k)).map (fun p => p.2)

/-- A pandas cell: either a real string or the NaN missing-value marker that
pandas inserts for absent data (`float('nan')`, which is truthy in Python and
has no string methods). -/
inductive PyVal where
  | na : PyVal
  | str (s : String) : PyVal
deriving DecidableEq

/-- `Series.fillna("")` on one cell. -/
def fillna_empty : PyVal → String
  | .na => ""
  | .str s => s

/-- One cell as it appears in a CSV written by `DataFrame.to_csv` with the
default `na_rep`: missing values serialize to the empty field. -/
def to_csv_cell : PyVal → String
  | .na => ""
  | .str s => s

/-- Outcome of the guarded body of `ExclusionAgent._review_llm`
(`crew_exclusion_agent.py`, lines 63-76): the chat-completion call, the
brace-span slicing and `json.loads` all sit inside one `try` block, so the
observable outcome is either an exception carrying a message (`err`) or a
successfully parsed JSON object (`ok`), modelled as its key/value pairs. -/
inductive LLMOutcome where
  | err (msg : String)
  | ok (obj : List (String × String))

/-- `ExclusionAgent._review_llm` (`crew_exclusion_agent.py`, lines 55-82):
returns the parsed JSON object, or, on any exception raised by the call or
the parsing, the fail-closed dictionary
`{"recommendation": "Exclude", "reason": "⚠️ LLM parsing error: <e>"}`. -/
def review_llm : LLMOutcome → List (String × String)
  | .err msg => [("recommendation", "Exclude"), ("reason", "⚠️ LLM parsing error: " ++ msg)]
  | .ok obj => obj

/-- The per-row update of `ExclusionAgent.run` (`crew_exclusion_agent.py`,
lines 103-106): `result.get("recommendation", "Exclude")` and
`result.get("reason", "⚠️ No reason provided")` become the row's
`Recommendation` and `Reason` columns. -/
def exclusion_row (o : LLMOutcome) : String × String :=
  let result := review_llm o
  ((alget result "recommendation").getD "Exclude",
   (alget result "reason").getD "⚠️ No reason provided")

/-- `ExtractorAgent._is_link_suspicious` (`crew_extractor_agent.py`, lines
90-99).  `pd.isna(link)` is true exactly for the missing-value marker;
otherwise `str(link).strip().lower()` is tested for a trailing slash or one
of the generic-navigation substrings. -/
def is_link_suspicious : PyVal → Bool
  | .na => true
  | .str v =>
    let link := plower (pstrip v)
    pendswith link "/" || pcontains link "#content__main" ||
      pcontains link "topics=" || pcontains link "filters="

/-- One row of the five-column update table built by `_classify_with_llm`
(`pd.DataFrame(parsed, columns=["date", "topic", "additional_context",
"link", "regulator"])`). -/
structure URow where
  date : PyVal
  topic : PyVal
  additional_context : PyVal
  link : PyVal
  regulator : PyVal
deriving DecidableEq

/-- The `columns=` argument of the `pd.DataFrame` constructor in
`_classify_with_llm` (`crew_llm_extractor_agent.py`, line 84 and
`crew_extractor_agent.py`, line 85). -/
def COLUMNS : List String :=
  ["date", "topic", "additional_context", "link", "regulator"]

/-- The loop `for item in parsed: if "additional_context" not in item:
item["additional_context"] = ""` (`crew_llm_extractor_agent.py`, lines
81-83). -/
def default_additional_context (obj : List (String × String)) : List (String × String) :=
  if (alget obj "additional_context").isSome then obj
  else obj ++ [("additional_context", "")]

/-- One cell of the `pd.DataFrame(parsed, columns=...)` constructor: a key
present in the JSON object gives its string value, an absent key gives the
NaN missing-value marker. -/
def df_cell (obj : List (String × String)) (c : String) : PyVal :=
  match alget obj c with
  | some v => .str v
  | none => .na

/-- One row of `pd.DataFrame(parsed, columns=COLUMNS)`: keys outside the five
columns are dropped, the five columns are filled from the object. -/
def df_row (obj : List (String × String)) : URow :=
  { date := df_cell obj "date"
    topic := df_cell obj "topic"
    additional_context := df_cell obj "additional_context"
    link := df_cell obj "link"
    regulator := df_cell obj "regulator" }

/-- The success path of `LLMExtractorAgent._classify_with_llm`
(`crew_llm_extractor_agent.py`, lines 80-84): the parsed JSON array (one
association list per element) is defaulted and framed into the five-column
table. -/
def classify_rows (parsed : List (List (String × String))) : List URow :=
  parsed.map (fun obj => df_row (default_additional_context obj))

/-- The cutoff `0.3` passed to `difflib.get_close_matches`. -/
def CUTOFF : Rat := ⟨3, 10, by norm_num, by norm_num⟩

/-- `difflib.get_close_matches(word, possibilities, n=1, cutoff)`: difflib
keeps the candidates whose `SequenceMatcher` ratio against `word` reaches the
cutoff (its two quick ratios are upper bounds of the ratio, so difflib's
triple test collapses to `ratio >= cutoff`) and `heapq.nlargest(1, ...)`
picks the greatest `(score, candidate)` pair, so ties in score go to the
lexicographically larger candidate and the first of equal pairs wins.  The
`SequenceMatcher` ratio itself is Python standard library code, abstracted
here as the `sim` parameter; `sim x word` is the ratio with `seq1 = x` and
`seq2 = word`, as difflib sets them.  This is one comparison step of the
running maximum. -/
def gcm_step (sim : String → String → Rat) (word : String) :
    Option String → String → Option String
  | none, x => some x
  | some b, x =>
    if sim b word < sim x word ∨ (sim b word = sim x word ∧ b < x) then some x
    else some b

/-- `difflib.get_close_matches(word, possibilities, n=1, cutoff)`: the
running maximum of `heapq.nlargest(1, ...)` over the candidates whose ratio
passes the cutoff (see `gcm_step` above for difflib's comparison
conventions); returns `None`-as-`none` when no candidate passes. -/
def get_close_matches_1 (sim : String → String → Rat) (cutoff : Rat)
    (word : String) (possibilities : List String) : Option String :=
  (possibilities.filter (fun x => cutoff ≤ sim x word)).foldl (gcm_step sim word) none

/-- Sequential effectful map over a list in the `Except` monad: the model of
a Python `for` loop whose body may raise — the first raise aborts the loop
and propagates. -/
def emapM {α β : Type} (f : α → Except String β) : List α → Except String (List β)
  | [] => .ok []
  | a :: l =>
    match f a with
    | .error e => .error e
    | .ok b =>
      match emapM f l with
      | .error e => .error e
      | .ok bs => .ok (b :: bs)

/-- `len(value_counts)` of a string series: the number of distinct values. -/
def value_counts_len (xs : List String) : Nat :=
  xs.dedup.length

/-- `value_counts().iloc[0]` of a string series: the count of the most
frequent value (`value_counts` sorts counts descending); zero on an empty
series. -/
def top_count (xs : List String) : Nat :=
  (xs.dedup.map (fun v => xs.count v)).foldr max 0

/-- The body of the repair loop of `ExtractorAgent._fix_links_by_matching_titles`
(`crew_extractor_agent.py`, lines 105-110) for one row: a suspicious link is
replaced by the single best fuzzy match of the lower-cased topic against the
known links when one reaches the cutoff, otherwise left unchanged; a NaN
topic on a suspicious row raises `AttributeError` at `topic.lower()`. -/
def repair_row (sim : String → String → Rat) (known_links : List String)
    (r : URow) : Except String URow :=
  if is_link_suspicious r.link then
    match r.topic with
    | .na => .error "AttributeError: 'float' object has no attribute 'lower'"
    | .str t =>
      match get_close_matches_1 sim CUTOFF (plower t) known_links with
      | some m => .ok { r with link := .str m }
      | none => .ok r
  else .ok r

/-- `df["link"].fillna("")`: the link column of a frame with missing values
filled by the empty string. -/
def filled_links (df : List URow) : List String :=
  df.map (fun r => fillna_empty r.link)

/-- `ExtractorAgent._fix_links_by_matching_titles` (`crew_extractor_agent.py`,
lines 101-113): `link_counts = df["link"].fillna("").value_counts()`; when
`len(link_counts) <= 3 or link_counts.iloc[0] > len(df) // 2` every row is
passed through the repair loop, otherwise the frame is returned untouched. -/
def fix_links_by_matching_titles (sim : String → String → Rat)
    (df : List URow) (known_links : List String) : Except String (List URow) :=
  let filled := filled_links df
  if value_counts_len filled ≤ 3 ∨ top_count filled > df.length / 2 then
    emapM (repair_row sim known_links) df
  else .ok df

/-- The match-and-fill step of `LLMExtractorAgent._fix_links`
(`crew_llm_extractor_agent.py`, lines 94-96) for one row, reached when the
link tested empty: `get_close_matches(topic.lower(), known_links, n=1,
cutoff=0.3)`; a NaN topic raises `AttributeError` at `topic.lower()`. -/
def fix_links_match (sim : String → String → Rat) (known_links : List String)
    (r : URow) : Except String URow :=
  match r.topic with
  | .na => .error "AttributeError: 'float' object has no attribute 'lower'"
  | .str t =>
    match get_close_matches_1 sim CUTOFF (plower t) known_links with
    | some m => .ok { r with link := .str m }
    | none => .ok r

/-- The body of the loop of `LLMExtractorAgent._fix_links`
(`crew_llm_extractor_agent.py`, lines 91-96) for one row: Python evaluates
`not row["link"] or row["link"].strip() == ""` — NaN is a truthy float, so
`not row["link"]` is False for it and `.strip()` then raises
`AttributeError`; the empty string short-circuits the `or` and proceeds to
the fuzzy match. -/
def fix_links_row (sim : String → String → Rat) (known_links : List String)
    (r : URow) : Except String URow :=
  let falsy := match r.link with
    | .na => false
    | .str s => s == ""
  if falsy then fix_links_match sim known_links r
  else
    match r.link with
    | .na => .error "AttributeError: 'float' object has no attribute 'strip'"
    | .str s =>
      if pstrip s == "" then fix_links_match sim known_links r
      else .ok r

/-- `LLMExtractorAgent._fix_links` (`crew_llm_extractor_agent.py`, lines
89-97): the final empty-link top-up pass over the whole frame; an exception
raised in the loop propagates (nothing in `_fix_links`, `LLMExtractorAgent.run`
or the orchestrating graph catches it), aborting that site's pipeline. -/
def fix_links (sim : String → String → Rat) (df : List URow)
    (known_links : List String) : Except String (List URow) :=
  emapM (fix_links_row sim known_links) df

/-- `ScraperAgent._scrape_site` (`crew_scraper_agent.py`, lines 40-56): the
whole Playwright interaction sits in a `try` block; its outcome is the
`fetched` parameter.  On success the page HTML is returned, on any exception
a synthetic error document is returned instead of re-raising. -/
def scrape_site (url : String) (fetched : Except String String) : String :=
  match fetched with
  | .ok html => html
  | .error e =>
    "<html><body><h1>Error scraping " ++ url ++ "</h1><p>" ++ e ++ "</p></body></html>"

/-- Per-site results of `run_horizon_scan` (`horizon_graph.py`, lines
105-109): one compiled-graph invocation per site URL; `pipeline url html`
abstracts the stages downstream of the scrape (cleaner, extractors,
exclusion, output) applied to the scraped document, returning the site's
`combined_updates` record list.  `sites` pairs each URL with its fetch
outcome. -/
def site_results {α : Type} (pipeline : String → String → List α)
    (sites : List (String × Except String String)) : List (List α) :=
  sites.map (fun su => pipeline su.1 (scrape_site su.1 su.2))

/-- The merged output of `run_horizon_scan` (`horizon_graph.py`, line 109):
`all_updates = [item for sublist in all_results for item in sublist]`. -/
def run_horizon_scan {α : Type} (pipeline : String → String → List α)
    (sites : List (String × Except String String)) : List α :=
  (site_results pipeline sites).flatten

/-- A node of the document tree BeautifulSoup builds with the lenient
`html.parser` builder: a text node (`NavigableString`) or an element with a
tag name, attributes and children.  Comments and doctypes, which never carry
visible text and which no claim touches, are not modelled. -/
inductive Node where
  | text (s : String)
  | elem (name : String) (attrs : List (String × String)) (children : List Node)

/-- `TAGS_TO_REMOVE` of `crew_cleaner_agent.py`, line 13. -/
def TAGS_TO_REMOVE : List String :=
  ["script", "style", "noscript", "footer", "header", "nav", "aside"]

/-- The characters of `tag.get_text(strip=True)` of a forest: every
descendant string stripped individually and concatenated in document order
(bs4 joins the stripped, non-empty strings with the empty separator). -/
def getTextC : List Node → List Char
  | [] => []
  | .text s :: cs => stripC s.data ++ getTextC cs
  | .elem _ _ cls :: cs => getTextC cls ++ getTextC cs

/-- Truthiness of `tag.get_text(strip=True)` over a tag's children: the
condition the cleaner tests. -/
def hasContentF (cs : List Node) : Bool :=
  !(getTextC cs).isEmpty

/-- The first removal pass of `CleanerAgent._clean_html_content`
(`crew_cleaner_agent.py`, lines 28-30): `soup.find_all(tag)` finds the
elements of each kind in `TAGS_TO_REMOVE` at any depth and `decompose()`
deletes them together with their descendants; equivalently, a recursive
filter dropping every element of a removed kind. -/
def removeKindsF : List Node → List Node
  | [] => []
  | .text s :: cs => .text s :: removeKindsF cs
  | .elem n a cls :: cs =>
    if n ∈ TAGS_TO_REMOVE then removeKindsF cs
    else .elem n a (removeKindsF cls) :: removeKindsF cs

/-- The second removal pass of `CleanerAgent._clean_html_content`
(`crew_cleaner_agent.py`, lines 33-35): every element whose
`get_text(strip=True)` is empty is decomposed unless its name is `br` or
`hr`.  The pass iterates a snapshot of `find_all()` in document order, and
removing an element never changes any other element's stripped text (a
removed element contributes only whitespace), so the pass equals this
recursive filter on the original emptiness test. -/
def removeEmptyF : List Node → List Node
  | [] => []
  | .text s :: cs => .text s :: removeEmptyF cs
  | .elem n a cls :: cs =>
    if hasContentF cls || (n == "br" || n == "hr") then
      .elem n a (removeEmptyF cls) :: removeEmptyF cs
    else removeEmptyF cs

/-- Both removal passes of `CleanerAgent._clean_html_content` in order. -/
def sanitizeF (cs : List Node) : List Node :=
  removeEmptyF (removeKindsF cs)

/-- The empty-element (void) tags that BeautifulSoup serializes as
self-closing `<name/>` and that `html.parser` builds without children. -/
def VOID_TAGS : List String :=
  ["area", "base", "br", "col", "embed", "hr", "img", "input", "link",
   "meta", "param", "source", "track", "wbr"]

/-- The HTML character escaping BeautifulSoup's output formatter applies to
text: `&`, `<` and `>` become entities, every other character is kept. -/
def escC : Char → List Char
  | '&' => "&amp;".data
  | '<' => "&lt;".data
  | '>' => "&gt;".data
  | c => [c]

/-- Escape a character list. -/
def escL (l : List Char) : List Char :=
  (l.map escC).flatten

/-- `soup.prettify()` indents one space per nesting level. -/
def spC (i : Nat) : List Char :=
  List.replicate i ' '

/-- Attribute serialization of BeautifulSoup's output: ` name="value"`. -/
def attrsC (attrs : List (String × String)) : List Char :=
  (attrs.map (fun p => (" " ++ p.1 ++ "=\"" ++ p.2 ++ "\"").data)).flatten

mutual
/-- One node of `soup.prettify()` (the `decode(pretty_print=True)` of bs4):
a string is stripped and, when non-empty, printed on its own indented line;
a void element prints as a self-closing tag line; any other element prints
an open-tag line, its children at the next indent level, and a close-tag
line. -/
def renderN : Node → Nat → List Char
  | .text s, i =>
    let t := stripC s.data
    if t.isEmpty then [] else spC i ++ escL t ++ ['\n']
  | .elem n a cls, i =>
    if n ∈ VOID_TAGS then
      spC i ++ '<' :: (n.data ++ attrsC a ++ ['/', '>', '\n'])
    else
      spC i ++ '<' :: (n.data ++ attrsC a ++ ['>', '\n']) ++
        renderF cls (i + 1) ++
        spC i ++ '<' :: '/' :: (n.data ++ ['>', '\n'])
/-- A forest of nodes rendered in document order at one indent level. -/
def renderF : List Node → Nat → List Char
  | [], _ => []
  | c :: cs, i => renderN c i ++ renderF cs i
end

/-- `soup.prettify()` of a whole document (the forest of top-level nodes). -/
def prettify (cs : List Node) : String :=
  ⟨renderF cs 0⟩

/-- `CleanerAgent._clean_html_content` (`crew_cleaner_agent.py`, lines
25-37) at the document level: the parse of the raw HTML (external bs4) is
the input forest; both removal passes run and the result is prettified. -/
def clean_html_content (cs : List Node) : String :=
  prettify (sanitizeF cs)

/-- Emit the pending text run as a single text node, if non-empty: when
`html.parser` re-reads prettified output, all characters between two tags
merge into one `NavigableString`. -/
def flushText (t : List Char) : List Node :=
  if t.isEmpty then [] else [Node.text ⟨t⟩]

/-- Model of the external round trip `BeautifulSoup(prettify(forest),
"html.parser")`, computed directly on the tree: `pend` is the text read so
far on the current run (entity escapes undone, so each stripped string
reappears verbatim), `fin` the whitespace that follows the last child (the
indent before the enclosing close tag, or nothing at top level).  Each
non-empty string contributes its stripped text between its indent and its
newline; each element flushes the pending run (plus its own indent) as one
merged text node, void elements come back childless, and a fresh run starts
with the newline that ends the element's last line. -/
def reparseF : List Node → Nat → List Char → List Char → List Node
  | [], _, pend, fin => flushText (pend ++ fin)
  | .text s :: cs, i, pend, fin =>
    let t := stripC s.data
    if t.isEmpty then reparseF cs i pend fin
    else reparseF cs i (pend ++ spC i ++ t ++ ['\n']) fin
  | .elem n a cls :: cs, i, pend, fin =>
    flushText (pend ++ spC i) ++
      (if n ∈ VOID_TAGS then [Node.elem n a []]
       else [Node.elem n a (reparseF cls (i + 1) ['\n'] (spC i))]) ++
      reparseF cs i ['\n'] fin

/-- The round trip at the top level: no pending text before the first node
and none after the last. -/
def reparseTop (cs : List Node) : List Node :=
  reparseF cs 0 [] []

/-- A forest in which every void-tag element is childless — the invariant
every tree actually built by `html.parser` satisfies, since the parser
closes void elements immediately. -/
def voidOkF : List Node → Bool
  | [] => true
  | .text _ :: cs => voidOkF cs
  | .elem n _ cls :: cs =>
    (if n ∈ VOID_TAGS then cls.isEmpty else true) && voidOkF cls && voidOkF cs

/-- A forest every element of which passes the cleaner's keep test with
respect to its own (current) children, recursively: the shape
`removeEmptyF` leaves behind. -/
def allKeptF : List Node → Bool
  | [] => true
  | .text _ :: cs => allKeptF cs
  | .elem n _ cls :: cs =>
    (hasContentF cls || (n == "br" || n == "hr")) && allKeptF cls && allKeptF cs

/-- A forest containing no element of a removed kind, recursively. -/
def noKindsF : List Node → Bool
  | [] => true
  | .text _ :: cs => noKindsF cs
  | .elem n _ cls :: cs =>
    (if n ∈ TAGS_TO_REMOVE then false else true) && noKindsF cls && noKindsF cs

/-- A character list that is entirely whitespace. -/
def wsOnlyL (l : List Char) : Prop :=
  ∀ c ∈ l, wsChar c = true

/-- The text the prettifier prints for a run of already-stripped pieces at
indent `i`: each piece on its own indented line. -/
def piecesStrC (i : Nat) (ps : List (List Char)) : List Char :=
  (ps.map (fun p => spC i ++ p ++ ['\n'])).flatten

/-- The same run after escaping, as the renderer emits it. -/
def prenderC (i : Nat) (ps : List (List Char)) : List Char :=
  (ps.map (fun p => spC i ++ escL p ++ ['\n'])).flatten

/-- The stripped content of a merged text run: the pieces joined by a
newline plus the indent that separated them on the page. -/
def interJ (i : Nat) : List (List Char) → List Char
  | [] => []
  | [p] => p
  | p :: rest => p ++ '\n' :: (spC i ++ interJ i rest)

/-- `node.get("href")` truthiness as used by the extractor: the attribute
must be present and non-empty. -/
def truthy_attr (attrs : List (String × String)) (k : String) : Option String :=
  match alget attrs k with
  | some v => if v == "" then none else some v
  | none => none

/-- `tag.get_text(strip=True)` as a string. -/
def get_text_strip (cs : List Node) : String :=
  ⟨getTextC cs⟩

mutual
/-- The `traverse` closure of
`HTMLExtractorAgent._extract_visible_text_and_links`
(`crew_html_extractor_agent.py`, lines 43-56): a `NavigableString`
contributes its stripped text when non-empty; an anchor with a truthy
`href` contributes the single unit `"{text} ({urljoin(base_url, href)})"`
when its stripped text is non-empty (and nothing at all otherwise — its
children are not visited); every other element recurses into its children.
`joinUrl` abstracts `urllib.parse.urljoin`. -/
def traverseN (joinUrl : String → String → String) (base : String) : Node → List String
  | .text s => if pstrip s == "" then [] else [pstrip s]
  | .elem name attrs cls =>
    if name == "a" then
      match truthy_attr attrs "href" with
      | some href =>
        let t := get_text_strip cls
        if t == "" then [] else [t ++ " (" ++ joinUrl base href ++ ")"]
      | none => traverseF joinUrl base cls
    else traverseF joinUrl base cls
/-- `traverse` over a child list in document order. -/
def traverseF (joinUrl : String → String → String) (base : String) :
    List Node → List String
  | [] => []
  | c :: cs => traverseN joinUrl base c ++ traverseF joinUrl base cs
end

/-- The link-inventory comprehension of
`_extract_visible_text_and_links` (`crew_html_extractor_agent.py`, line 60):
`[part.split(" (")[-1].rstrip(")") for part in result if " (" in part]`,
then `list(set(...))` — modelled as order-preserving deduplication (claims
only use membership, which does not depend on the set's iteration order). -/
def extract_links (result : List String) : List String :=
  (result.filterMap (fun part =>
    if pcontains part " (" then
      some (prstrip ')' ((psplit part " (").getLastD part))
    else none)).dedup

/-- `HTMLExtractorAgent._extract_visible_text_and_links`
(`crew_html_extractor_agent.py`, lines 34-61) applied to the children of
`soup.body or soup`: the traversal result is space-joined into the visible
text, and the link inventory is split out of the emitted units. -/
def extract_visible_text_and_links (joinUrl : String → String → String)
    (base : String) (body : List Node) : String × List String :=
  let result := traverseF joinUrl base body
  (pjoin " " result, extract_links result)

/-! ## Helper lemmas -/

theorem string_append_ne_empty (s t : String) (h : s.data ≠ []) : s ++ t ≠ "" := by
  intro hc
  apply h
  have hd := congrArg String.data hc
  rw [String.data_append] at hd
  exact (List.append_eq_nil.mp hd).1

theorem alget_append (obj l : List (String × String)) (k : String)
    (h : alget obj k = none) : alget (obj ++ l) k = alget l k := by
  induction obj with
  | nil => simp [alget]
  | cons p obj ih =>
    by_cases hp : p.1 == k
    · simp [alget, List.find?, hp] at h
    · simp only [alget, List.cons_append, List.find?, hp] at h ⊢
      exact ih h

theorem emapM_ok_length {α β : Type} (f : α → Except String β) :
    ∀ (l : List α) (out : List β), emapM f l = .ok out → out.length = l.length
  | [], out => by
    intro h
    simp only [emapM, Except.ok.injEq] at h
    simp [← h]
  | a :: l, out => by
    intro h
    simp only [emapM] at h
    cases hfa : f a with
    | error e => rw [hfa] at h; exact absurd h (by simp)
    | ok b =>
      rw [hfa] at h
      cases hrec : emapM f l with
      | error e => rw [hrec] at h; exact absurd h (by simp)
      | ok bs =>
        rw [hrec] at h
        simp only [Except.ok.injEq] at h
        have := emapM_ok_length f l bs hrec
        simp [← h, this]

theorem emapM_ok_getElem? {α β : Type} (f : α → Except String β) :
    ∀ (l : List α) (out : List β), emapM f l = .ok out →
      ∀ (i : Nat) (a : α), l[i]? = some a → ∃ b, out[i]? = some b ∧ f a = .ok b
  | [], out => by
    intro _ i a ha
    simp at ha
  | x :: l, out => by
    intro h i a ha
    simp only [emapM] at h
    cases hfa : f x with
    | error e => rw [hfa] at h; exact absurd h (by simp)
    | ok b =>
      rw [hfa] at h
      cases hrec : emapM f l with
      | error e => rw [hrec] at h; exact absurd h (by simp)
      | ok bs =>
        rw [hrec] at h
        simp only [Except.ok.injEq] at h
        cases i with
        | zero =>
          simp only [List.getElem?_cons_zero, Option.some.injEq] at ha
          exact ⟨b, by simp [← h], by rw [← ha]; exact hfa⟩
        | succ j =>
          simp only [List.getElem?_cons_succ] at ha
          obtain ⟨c, hc1, hc2⟩ := emapM_ok_getElem? f l bs hrec j a ha
          exact ⟨c, by simp [← h, hc1], hc2⟩

theorem emapM_error_exists {α β : Type} (f : α → Except String β) (P : String → Prop) :
    ∀ l : List α, (∀ a ∈ l, ∀ e, f a = .error e → P e) →
      (∃ a ∈ l, ∃ e, f a = .error e) →
      ∃ e, emapM f l = .error e ∧ P e
  | [] => by
    intro _ hx
    simp at hx
  | a :: l => by
    intro hP hx
    cases hfa : f a with
    | error e =>
      exact ⟨e, by simp [emapM, hfa], hP a (by simp) e hfa⟩
    | ok b =>
      have hx' : ∃ x ∈ l, ∃ e, f x = .error e := by
        obtain ⟨x, hx1, e, hx2⟩ := hx
        rcases List.mem_cons.mp hx1 with h | h
        · rw [h, hfa] at hx2; exact absurd hx2 (by simp)
        · exact ⟨x, h, e, hx2⟩
      obtain ⟨e, he1, he2⟩ :=
        emapM_error_exists f P l (fun x hx => hP x (List.mem_cons_of_mem a hx)) hx'
      exact ⟨e, by simp [emapM, hfa, he1], he2⟩

/-! ## Claim theorems -/

/-- C1.  For every record processed by the relevance filter, any exception
raised by the classifier call or the parsing of its response is caught: the
row's recommendation is set to `Exclude` and its reason to the non-empty
diagnostic `"⚠️ LLM parsing error: <e>"`. -/
theorem claim1_fail_closed (msg : String) :
    (exclusion_row (.err msg)).1 = "Exclude" ∧
    (exclusion_row (.err msg)).2 = "⚠️ LLM parsing error: " ++ msg ∧
    (exclusion_row (.err msg)).2 ≠ "" := by
  refine ⟨rfl, rfl, ?_⟩
  exact string_append_ne_empty "⚠️ LLM parsing error: " msg (by decide)

/-- C6, counterexample.  A well-formed classifier response whose JSON object
carries an arbitrary recommendation string and an empty reason is copied
verbatim onto the record: the output recommendation is neither `Include` nor
`Exclude` and the reason is empty, so the claimed invariant fails. -/
theorem claim6_counterexample :
    (exclusion_row (.ok [("recommendation", "Maybe"), ("reason", "")])).1 ≠ "Include" ∧
    (exclusion_row (.ok [("recommendation", "Maybe"), ("reason", "")])).1 ≠ "Exclude" ∧
    (exclusion_row (.ok [("recommendation", "Maybe"), ("reason", "")])).2 = "" := by
  refine ⟨by decide, by decide, rfl⟩

/-- C6, amended.  Every record in the filter's output carries a
recommendation and a reason; either they are the fail-closed pair (`Exclude`
with a non-empty diagnostic), or the classifier's response parsed and both
values are copied verbatim from the JSON object, with `Exclude` and
`"⚠️ No reason provided"` as defaults for missing keys — so a parsed
response may put an arbitrary recommendation string or an empty reason on
the record. -/
theorem claim6_amended (o : LLMOutcome) :
    ((exclusion_row o).1 = "Exclude" ∧ (exclusion_row o).2 ≠ "") ∨
    (∃ obj, o = .ok obj ∧
      (exclusion_row o).1 = (alget obj "recommendation").getD "Exclude" ∧
      (exclusion_row o).2 = (alget obj "reason").getD "⚠️ No reason provided") := by
  cases o with
  | err msg =>
    left
    refine ⟨rfl, ?_⟩
    exact string_append_ne_empty "⚠️ LLM parsing error: " msg (by decide)
  | ok obj => exact .inr ⟨obj, rfl, rfl, rfl⟩

/-- C2, counterexample.  The suspicion test returns `false` on the empty
link: `pd.isna("")` is false and the empty string neither ends in a slash
nor contains any of the patterns, so the claim that every empty link tests
suspicious fails. -/
theorem claim2_counterexample : is_link_suspicious (.str "") = false := by decide

/-- C2, amended.  The suspicion test returns `true` exactly for the missing
(NaN) link and for every link which, after stripping and lower-casing, ends
in a trailing path separator or contains `#content__main`, `topics=` or
`filters=`; in particular the empty-string link returns `false`. -/
theorem claim2_amended :
    (∀ v : PyVal, is_link_suspicious v = true ↔
      (v = .na ∨ ∃ s, v = .str s ∧
        (pendswith (plower (pstrip s)) "/" = true ∨
         pcontains (plower (pstrip s)) "#content__main" = true ∨
         pcontains (plower (pstrip s)) "topics=" = true ∨
         pcontains (plower (pstrip s)) "filters=" = true))) ∧
    is_link_suspicious (.str "") = false := by
  constructor
  · intro v
    cases v with
    | na => simp [is_link_suspicious]
    | str s => simp [is_link_suspicious, Bool.or_eq_true, or_assoc]
  · decide

theorem default_additional_context_of_none (obj : List (String × String))
    (hac : alget obj "additional_context" = none) :
    default_additional_context obj = obj ++ [("additional_context", "")] := by
  unfold default_additional_context
  rw [if_neg]
  simp [hac]

theorem default_additional_context_of_some (obj : List (String × String)) (v : String)
    (hac : alget obj "additional_context" = some v) :
    default_additional_context obj = obj := by
  unfold default_additional_context
  rw [if_pos]
  simp [hac]

theorem alget_default_other (obj : List (String × String)) (k : String)
    (hk : k ≠ "additional_context") (h : alget obj k = none) :
    alget (default_additional_context obj) k = none := by
  cases halg : alget obj "additional_context" with
  | some v =>
    rw [default_additional_context_of_some obj v halg]
    exact h
  | none =>
    rw [default_additional_context_of_none obj halg]
    rw [alget_append obj _ _ h]
    simp only [alget, List.find?]
    have hne : (("additional_context" : String) == k) = false :=
      beq_eq_false_iff_ne.mpr (Ne.symm hk)
    simp [hne]

/-- C4.  For every parsed classifier response — including JSON arrays whose
elements omit keys — the framed table has exactly the five columns `date`,
`topic`, `additional_context`, `link`, `regulator`; an element missing
`additional_context` gets the empty string, and every other omitted field is
created empty in the table (the NaN missing-value cell, which serializes to
the empty CSV field). -/
theorem claim4_schema (parsed : List (List (String × String)))
    (obj : List (String × String)) (h : obj ∈ parsed) :
    df_row (default_additional_context obj) ∈ classify_rows parsed ∧
    COLUMNS = ["date", "topic", "additional_context", "link", "regulator"] ∧
    COLUMNS.length = 5 ∧
    (alget obj "additional_context" = none →
      (df_row (default_additional_context obj)).additional_context = .str "") ∧
    (alget obj "date" = none →
      (df_row (default_additional_context obj)).date = .na ∧
      to_csv_cell (df_row (default_additional_context obj)).date = "") ∧
    (alget obj "topic" = none →
      (df_row (default_additional_context obj)).topic = .na ∧
      to_csv_cell (df_row (default_additional_context obj)).topic = "") ∧
    (alget obj "link" = none →
      (df_row (default_additional_context obj)).link = .na ∧
      to_csv_cell (df_row (default_additional_context obj)).link = "") ∧
    (alget obj "regulator" = none →
      (df_row (default_additional_context obj)).regulator = .na ∧
      to_csv_cell (df_row (default_additional_context obj)).regulator = "") := by
  refine ⟨List.mem_map_of_mem _ h, rfl, rfl, ?_, ?_, ?_, ?_, ?_⟩
  · intro hac
    simp only [df_row, df_cell]
    rw [default_additional_context_of_none obj hac, alget_append obj _ _ hac]
    rfl
  · intro hn
    have := alget_default_other obj "date" (by decide) hn
    simp [df_row, df_cell, this, to_csv_cell]
  · intro hn
    have := alget_default_other obj "topic" (by decide) hn
    simp [df_row, df_cell, this, to_csv_cell]
  · intro hn
    have := alget_default_other obj "link" (by decide) hn
    simp [df_row, df_cell, this, to_csv_cell]
  · intro hn
    have := alget_default_other obj "regulator" (by decide) hn
    simp [df_row, df_cell, this, to_csv_cell]

/-- C4, witness: a one-element array whose object has only a topic. -/
theorem claim4_schema_witness :
    [("topic", "Rule 123")] ∈ [[("topic", "Rule 123")]] ∧
    alget [("topic", "Rule 123")] "additional_context" = none ∧
    alget [("topic", "Rule 123")] "link" = none ∧
    (df_row (default_additional_context [("topic", "Rule 123")])).additional_context = .str "" ∧
    (df_row (default_additional_context [("topic", "Rule 123")])).link = .na := by
  have hmain := claim4_schema [[("topic", "Rule 123")]] [("topic", "Rule 123")] (by decide)
  exact ⟨by decide, by decide, by decide,
    hmain.2.2.2.1 (by decide), (hmain.2.2.2.2.2.2.1 (by decide)).1⟩

/-- C5.  When a site's page fetch raises, that site's pipeline receives the
synthetic error HTML document instead of aborting, and every site whose
fetch succeeded still runs on its fetched page and keeps its (possibly
empty) record list inside the merged output. -/
theorem claim5_isolation {α : Type} (pipeline : String → String → List α)
    (sites : List (String × Except String String)) (k : Nat) (url e : String)
    (hk : sites[k]? = some (url, .error e)) :
    (site_results pipeline sites)[k]? = some (pipeline url
      ("<html><body><h1>Error scraping " ++ url ++ "</h1><p>" ++ e ++
        "</p></body></html>")) ∧
    ∀ (j : Nat) (jurl h : String), sites[j]? = some (jurl, .ok h) →
      (site_results pipeline sites)[j]? = some (pipeline jurl h) ∧
      pipeline jurl h <:+: run_horizon_scan pipeline sites := by
  constructor
  · unfold site_results
    rw [List.getElem?_map, hk]
    rfl
  · intro j jurl h hj
    have h1 : (site_results pipeline sites)[j]? = some (pipeline jurl h) := by
      unfold site_results
      rw [List.getElem?_map, hj]
      rfl
    refine ⟨h1, ?_⟩
    have hmem : pipeline jurl h ∈ site_results pipeline sites := List.getElem?_mem h1
    exact List.infix_of_mem_flatten hmem

/-- C5, witness: two sites, the second fetch raising. -/
theorem claim5_isolation_witness :
    ([("a", Except.ok "H"), ("b", Except.error "boom")] :
        List (String × Except String String))[1]? = some ("b", .error "boom") ∧
    (site_results (fun u h => [u ++ "|" ++ h])
        [("a", .ok "H"), ("b", .error "boom")])[1]? =
      some ((fun u h => [u ++ "|" ++ h]) "b"
        ("<html><body><h1>Error scraping " ++ "b" ++ "</h1><p>" ++ "boom" ++
          "</p></body></html>")) ∧
    (fun (u h : String) => [u ++ "|" ++ h]) "a" "H" <:+:
      run_horizon_scan (fun u h => [u ++ "|" ++ h])
        [("a", .ok "H"), ("b", .error "boom")] := by
  have hmain := claim5_isolation (fun u h => [u ++ "|" ++ h])
    [("a", .ok "H"), ("b", .error "boom")] 1 "b" "boom" rfl
  exact ⟨rfl, hmain.1, (hmain.2 0 "a" "H" rfl).2⟩

theorem fix_links_match_error (sim : String → String → Rat)
    (known_links : List String) (r : URow) (e : String)
    (h : fix_links_match sim known_links r = .error e) :
    e = "AttributeError: 'float' object has no attribute 'lower'" := by
  unfold fix_links_match at h
  split at h
  · simp only [Except.error.injEq] at h
    exact h.symm
  · split at h
    · exact absurd h (by simp)
    · exact absurd h (by simp)

theorem fix_links_row_error (sim : String → String → Rat)
    (known_links : List String) (r : URow) (e : String)
    (h : fix_links_row sim known_links r = .error e) :
    pstartswith e "AttributeError" = true := by
  unfold fix_links_row at h
  cases hl : r.link with
  | na =>
    rw [hl] at h
    simp only [Bool.false_eq_true, if_false, Except.error.injEq] at h
    rw [← h]
    decide
  | str s =>
    rw [hl] at h
    by_cases h0 : (s == "") = true
    · simp only [h0, if_true] at h
      rw [fix_links_match_error sim known_links r e h]
      decide
    · rw [Bool.not_eq_true] at h0
      simp only [h0, Bool.false_eq_true, if_false] at h
      by_cases h1 : (pstrip s == "") = true
      · simp only [h1, if_true] at h
        rw [fix_links_match_error sim known_links r e h]
        decide
      · rw [Bool.not_eq_true] at h1
        simp only [h1, Bool.false_eq_true, if_false] at h
        exact absurd h (by simp)

theorem fix_links_row_raises (sim : String → String → Rat)
    (known_links : List String) (r : URow)
    (hb : r.link = .na ∨
      (∃ s, r.link = .str s ∧ (s = "" ∨ pstrip s = "") ∧ r.topic = .na)) :
    ∃ e, fix_links_row sim known_links r = .error e := by
  rcases hb with h | ⟨s, hs, hse, ht⟩
  · exact ⟨"AttributeError: 'float' object has no attribute 'strip'",
      by simp [fix_links_row, h]⟩
  · refine ⟨"AttributeError: 'float' object has no attribute 'lower'", ?_⟩
    by_cases h0 : s = ""
    · subst h0
      simp [fix_links_row, hs, fix_links_match, ht]
    · rcases hse with h1 | h1
      · exact absurd h1 h0
      · have hb : (s == "") = false := beq_eq_false_iff_ne.mpr h0
        simp [fix_links_row, hs, hb, h1, fix_links_match, ht]

theorem gcm_step_isSome (sim : String → String → Rat) (word : String)
    (acc : Option String) (x : String) : ∃ c, gcm_step sim word acc x = some c := by
  cases acc with
  | none => exact ⟨x, rfl⟩
  | some b =>
    by_cases hc : sim b word < sim x word ∨ (sim b word = sim x word ∧ b < x)
    · exact ⟨x, by simp only [gcm_step]; rw [if_pos hc]⟩
    · exact ⟨b, by simp only [gcm_step]; rw [if_neg hc]⟩

theorem gcm_step_cases (sim : String → String → Rat) (word : String)
    (acc : Option String) (x c : String) (h : gcm_step sim word acc x = some c) :
    c = x ∨ acc = some c := by
  cases acc with
  | none =>
    simp only [gcm_step, Option.some.injEq] at h
    exact .inl h.symm
  | some b =>
    simp only [gcm_step] at h
    split at h
    · simp only [Option.some.injEq] at h
      exact .inl h.symm
    · simp only [Option.some.injEq] at h
      exact .inr (by rw [h])

theorem gcm_step_ge_x (sim : String → String → Rat) (word : String)
    (acc : Option String) (x c : String) (h : gcm_step sim word acc x = some c) :
    sim x word ≤ sim c word := by
  cases acc with
  | none =>
    simp only [gcm_step, Option.some.injEq] at h
    rw [← h]
  | some b =>
    simp only [gcm_step] at h
    split at h
    · simp only [Option.some.injEq] at h
      rw [← h]
    · simp only [Option.some.injEq] at h
      rw [← h]
      rename_i hneg
      push_neg at hneg
      exact hneg.1

theorem gcm_step_ge_acc (sim : String → String → Rat) (word : String)
    (acc : Option String) (x c b : String) (hacc : acc = some b)
    (h : gcm_step sim word acc x = some c) : sim b word ≤ sim c word := by
  subst hacc
  simp only [gcm_step] at h
  split at h
  · simp only [Option.some.injEq] at h
    rw [← h]
    rename_i hpos
    rcases hpos with hlt | ⟨heq, _⟩
    · exact le_of_lt hlt
    · exact le_of_eq heq
  · simp only [Option.some.injEq] at h
    rw [← h]

theorem gcm_foldl_spec (sim : String → String → Rat) (word : String) :
    ∀ (L : List String) (acc : Option String) (m : String),
      L.foldl (gcm_step sim word) acc = some m →
      (m ∈ L ∨ acc = some m) ∧ (∀ x ∈ L, sim x word ≤ sim m word) ∧
        (∀ b, acc = some b → sim b word ≤ sim m word)
  | [], acc, m => by
    intro h
    simp only [List.foldl_nil] at h
    refine ⟨.inr h, by simp, fun b hb => ?_⟩
    rw [h] at hb
    injection hb with hb
    rw [hb]
  | x :: L, acc, m => by
    intro h
    simp only [List.foldl_cons] at h
    obtain ⟨c, hc⟩ := gcm_step_isSome sim word acc x
    rw [hc] at h
    obtain ⟨h1, h2, h3⟩ := gcm_foldl_spec sim word L (some c) m h
    have hcm : sim c word ≤ sim m word := h3 c rfl
    refine ⟨?_, ?_, ?_⟩
    · rcases h1 with hm | hm
      · exact .inl (List.mem_cons_of_mem x hm)
      · injection hm with hm
        rcases gcm_step_cases sim word acc x c hc with h4 | h4
        · exact .inl (by rw [← hm, h4]; exact List.mem_cons_self x L)
        · exact .inr (by rw [← hm]; exact h4)
    · intro y hy
      rcases List.mem_cons.mp hy with hy' | hy'
      · rw [hy']
        exact le_trans (gcm_step_ge_x sim word acc x c hc) hcm
      · exact h2 y hy'
    · intro b hb
      exact le_trans (gcm_step_ge_acc sim word acc x c b hb hc) hcm

theorem gcm_foldl_acc_some (sim : String → String → Rat) (word : String) :
    ∀ (L : List String) (b : String),
      ∃ m, L.foldl (gcm_step sim word) (some b) = some m
  | [], b => ⟨b, rfl⟩
  | x :: L, b => by
    simp only [List.foldl_cons]
    obtain ⟨c, hc⟩ := gcm_step_isSome sim word (some b) x
    rw [hc]
    exact gcm_foldl_acc_some sim word L c

theorem gcm_foldl_none (sim : String → String → Rat) (word : String) :
    ∀ L : List String, L.foldl (gcm_step sim word) none = none → L = []
  | [] => fun _ => rfl
  | x :: L => by
    intro h
    simp only [List.foldl_cons] at h
    rw [show gcm_step sim word none x = some x from rfl] at h
    obtain ⟨m, hm⟩ := gcm_foldl_acc_some sim word L x
    rw [hm] at h
    exact absurd h (by simp)

theorem repair_row_not_suspicious (sim : String → String → Rat)
    (known_links : List String) (r : URow)
    (h : is_link_suspicious r.link = false) :
    repair_row sim known_links r = .ok r := by
  unfold repair_row
  rw [h]
  simp

theorem repair_row_suspicious (sim : String → String → Rat)
    (known_links : List String) (r : URow) (t : String)
    (hs : is_link_suspicious r.link = true) (ht : r.topic = .str t) :
    repair_row sim known_links r =
      .ok (match get_close_matches_1 sim CUTOFF (plower t) known_links with
        | some m => { r with link := .str m }
        | none => r) := by
  unfold repair_row
  rw [hs, ht]
  simp only [if_true]
  cases hg : get_close_matches_1 sim CUTOFF (plower t) known_links <;> simp

/-- C3.  The low-variety link repair triggers exactly when the number of
distinct (NaN-filled) link values is at most 3 or the single most frequent
link covers strictly more than half the records (the code's `> len(df) // 2`
floor-division test is equivalent over naturals); when the trigger fails
nothing is modified; when it holds, each row whose link is suspicious
receives the best fuzzy match of its lower-cased topic against the link
inventory when one reaches the 0.3 cutoff and keeps its link otherwise, and
each non-suspicious row is untouched; the chosen match is the
highest-similarity candidate reaching the cutoff, and `none` means no
candidate reaches it. -/
theorem claim3_repair_trigger (sim : String → String → Rat) (df : List URow)
    (known_links : List String) :
    ((value_counts_len (filled_links df) ≤ 3 ∨
        top_count (filled_links df) > df.length / 2) ↔
      (value_counts_len (filled_links df) ≤ 3 ∨
        2 * top_count (filled_links df) > df.length)) ∧
    (¬ (value_counts_len (filled_links df) ≤ 3 ∨
        2 * top_count (filled_links df) > df.length) →
      fix_links_by_matching_titles sim df known_links = .ok df) ∧
    (∀ out, fix_links_by_matching_titles sim df known_links = .ok out →
      (value_counts_len (filled_links df) ≤ 3 ∨
        2 * top_count (filled_links df) > df.length) →
      out.length = df.length ∧
      ∀ (i : Nat) (r r2 : URow), df[i]? = some r → out[i]? = some r2 →
        (is_link_suspicious r.link = false → r2 = r) ∧
        (∀ t, r.topic = .str t → is_link_suspicious r.link = true →
          r2 = (match get_close_matches_1 sim CUTOFF (plower t) known_links with
            | some m => { r with link := .str m }
            | none => r))) ∧
    (∀ (w m : String), get_close_matches_1 sim CUTOFF w known_links = some m →
      m ∈ known_links ∧ CUTOFF ≤ sim m w ∧
      ∀ x ∈ known_links, CUTOFF ≤ sim x w → sim x w ≤ sim m w) ∧
    (∀ w : String, get_close_matches_1 sim CUTOFF w known_links = none →
      ∀ x ∈ known_links, ¬ CUTOFF ≤ sim x w) := by
  refine ⟨?_, ?_, ?_, ?_, ?_⟩
  · constructor
    · rintro (h | h)
      · exact .inl h
      · right; omega
    · rintro (h | h)
      · exact .inl h
      · right; omega
  · intro hn
    unfold fix_links_by_matching_titles
    rw [if_neg]
    rintro (h | h)
    · exact hn (.inl h)
    · exact hn (.inr (by omega))
  · intro out hout htrig
    have hcode : value_counts_len (filled_links df) ≤ 3 ∨
        top_count (filled_links df) > df.length / 2 := by
      rcases htrig with h | h
      · exact .inl h
      · right; omega
    unfold fix_links_by_matching_titles at hout
    rw [if_pos hcode] at hout
    refine ⟨emapM_ok_length _ df out hout, ?_⟩
    intro i r r2 hi hi2
    obtain ⟨b, hb1, hb2⟩ := emapM_ok_getElem? _ df out hout i r hi
    rw [hi2] at hb1
    injection hb1 with hb1
    subst hb1
    constructor
    · intro hsusp
      rw [repair_row_not_suspicious sim known_links r hsusp] at hb2
      injection hb2 with hb2
      exact hb2.symm
    · intro t ht hsusp
      rw [repair_row_suspicious sim known_links r t hsusp ht] at hb2
      injection hb2 with hb2
      exact hb2.symm
  · intro w m h
    unfold get_close_matches_1 at h
    obtain ⟨h1, h2, _⟩ := gcm_foldl_spec sim w _ none m h
    have hm : m ∈ List.filter (fun x => decide (CUTOFF ≤ sim x w)) known_links := by
      rcases h1 with h1 | h1
      · exact h1
      · exact absurd h1 (by simp)
    obtain ⟨hmem, hdec⟩ := List.mem_filter.mp hm
    refine ⟨hmem, of_decide_eq_true hdec, ?_⟩
    intro x hx hcx
    exact h2 x (List.mem_filter.mpr ⟨hx, decide_eq_true hcx⟩)
  · intro w h x hx hcx
    unfold get_close_matches_1 at h
    cases hfold : List.foldl (gcm_step sim w)
        (none : Option String) (List.filter (fun x => decide (CUTOFF ≤ sim x w)) known_links) with
    | some m => rw [hfold] at h; exact absurd h (by simp)
    | none =>
      have hnil := gcm_foldl_none sim w _ hfold
      have : x ∈ List.filter (fun x => decide (CUTOFF ≤ sim x w)) known_links :=
        List.mem_filter.mpr ⟨hx, decide_eq_true hcx⟩
      rw [hnil] at this
      exact absurd this (by simp)

/-- C3, witness: one row with a NaN (suspicious) link and topic `"Alpha"`;
the inventory holds the exact lower-cased match, so the link is repaired. -/
theorem claim3_witness :
    (value_counts_len (filled_links [(⟨.na, .str "Alpha", .na, .na, .na⟩ : URow)]) ≤ 3 ∨
      2 * top_count (filled_links [(⟨.na, .str "Alpha", .na, .na, .na⟩ : URow)]) >
        ([(⟨.na, .str "Alpha", .na, .na, .na⟩ : URow)] : List URow).length) ∧
    fix_links_by_matching_titles (fun x w => if x == w then (1 : Rat) else 0)
        [⟨.na, .str "Alpha", .na, .na, .na⟩] ["alpha"] =
      .ok [⟨.na, .str "Alpha", .na, .str "alpha", .na⟩] ∧
    (⟨.na, .str "Alpha", .na, .str "alpha", .na⟩ : URow) =
      (match get_close_matches_1 (fun x w => if x == w then (1 : Rat) else 0) CUTOFF
          (plower "Alpha") ["alpha"] with
        | some m => { (⟨.na, .str "Alpha", .na, .na, .na⟩ : URow) with link := .str m }
        | none => (⟨.na, .str "Alpha", .na, .na, .na⟩ : URow)) := by
  have hok : fix_links_by_matching_titles (fun x w => if x == w then (1 : Rat) else 0)
      [⟨.na, .str "Alpha", .na, .na, .na⟩] ["alpha"] =
      .ok [⟨.na, .str "Alpha", .na, .str "alpha", .na⟩] := by rfl
  have hmain := claim3_repair_trigger (fun x w => if x == w then (1 : Rat) else 0)
    [⟨.na, .str "Alpha", .na, .na, .na⟩] ["alpha"]
  refine ⟨by decide, hok, ?_⟩
  exact ((hmain.2.2.1 _ hok (by decide)).2 0 _ _ rfl rfl).2 "Alpha" rfl rfl

/-- C10.  The final empty-link top-up pass is only total on string cells: a
row whose link is the NaN missing value (which is what a JSON element that
omits the `link` key produces in the frame), or whose link is empty while
its topic is the NaN missing value, makes `_fix_links` raise an uncaught
`AttributeError`, aborting that site's pipeline instead of leaving the row
unchanged. -/
theorem claim10_fix_links_raises (sim : String → String → Rat) (df : List URow)
    (known_links : List String)
    (h : ∃ r ∈ df, r.link = .na ∨
      (∃ s, r.link = .str s ∧ (s = "" ∨ pstrip s = "") ∧ r.topic = .na)) :
    (∃ e, fix_links sim df known_links = .error e ∧
      pstartswith e "AttributeError" = true) ∧
    (∀ obj, alget obj "link" = none → (df_row obj).link = .na) := by
  constructor
  · unfold fix_links
    apply emapM_error_exists _ _ df
    · intro r _ e he
      exact fix_links_row_error sim known_links r e he
    · obtain ⟨r, hr, hb⟩ := h
      exact ⟨r, hr, fix_links_row_raises sim known_links r hb⟩
  · intro obj hno
    simp [df_row, df_cell, hno]

theorem traverseF_append (joinUrl : String → String → String) (base : String) :
    ∀ (l₁ l₂ : List Node),
      traverseF joinUrl base (l₁ ++ l₂) =
        traverseF joinUrl base l₁ ++ traverseF joinUrl base l₂
  | [], l₂ => by simp [traverseF]
  | c :: cs, l₂ => by
    simp only [List.cons_append, traverseF, List.append_eq,
      traverseF_append joinUrl base cs l₂, List.append_assoc]

theorem removeEmptyF_append : ∀ (l₁ l₂ : List Node),
    removeEmptyF (l₁ ++ l₂) = removeEmptyF l₁ ++ removeEmptyF l₂
  | [], l₂ => by simp [removeEmptyF]
  | .text s :: cs, l₂ => by
    simp only [List.cons_append, removeEmptyF, removeEmptyF_append cs l₂]
  | .elem n a cls :: cs, l₂ => by
    by_cases hk : (hasContentF cls || (n == "br" || n == "hr")) = true
    · simp only [List.cons_append, removeEmptyF, hk, if_true,
        removeEmptyF_append cs l₂, List.cons_append]
    · rw [Bool.not_eq_true] at hk
      simp only [List.cons_append, removeEmptyF, hk, Bool.false_eq_true, if_false,
        removeEmptyF_append cs l₂]

/-- C8.  An anchor that has a truthy `href` but whose visible text strips to
nothing contributes nothing to the extractor's output — the traversal emits
no unit for it (its children are not even visited), so neither its text nor
its URL reaches the visible text or the link inventory; moreover the
sanitizer deletes every element other than `br`/`hr` whose rendered text is
empty, so an anchor whose only content is an image is removed by the cleaner
before extraction and its link is lost. -/
theorem claim8_empty_anchor (joinUrl : String → String → String) (base : String)
    (pre post pre2 post2 : List Node) (attrs a2 : List (String × String))
    (cs cs2 : List Node) (name : String)
    (h1 : (truthy_attr attrs "href").isSome = true)
    (h2 : get_text_strip cs = "")
    (h3 : hasContentF cs2 = false) (h4 : name ≠ "br") (h5 : name ≠ "hr") :
    extract_visible_text_and_links joinUrl base (pre ++ Node.elem "a" attrs cs :: post) =
      extract_visible_text_and_links joinUrl base (pre ++ post) ∧
    removeEmptyF (pre2 ++ Node.elem name a2 cs2 :: post2) =
      removeEmptyF (pre2 ++ post2) := by
  constructor
  · have hanchor : traverseN joinUrl base (Node.elem "a" attrs cs) = [] := by
      obtain ⟨href, hhref⟩ := Option.isSome_iff_exists.mp h1
      simp [traverseN, hhref, h2]
    have hres : traverseF joinUrl base (pre ++ Node.elem "a" attrs cs :: post) =
        traverseF joinUrl base (pre ++ post) := by
      rw [traverseF_append, traverseF_append]
      simp only [traverseF, hanchor, List.nil_append]
    unfold extract_visible_text_and_links
    rw [hres]
  · have hcond : (hasContentF cs2 || (name == "br" || name == "hr")) = false := by
      rw [h3, beq_eq_false_iff_ne.mpr h4, beq_eq_false_iff_ne.mpr h5]
      rfl
    rw [removeEmptyF_append, removeEmptyF_append]
    simp only [removeEmptyF, hcond, Bool.false_eq_true, if_false]

/-- C8, witness: an anchor holding only an image, before and after the
cleaner. -/
theorem claim8_empty_anchor_witness :
    (truthy_attr [("href", "https://x.gov/r/1")] "href").isSome = true ∧
    get_text_strip [Node.elem "img" [("src", "y.png")] []] = "" ∧
    hasContentF [Node.elem "img" [("src", "y.png")] []] = false ∧
    extract_visible_text_and_links (fun b h => b ++ h) ""
        ([Node.text "hello"] ++
          Node.elem "a" [("href", "https://x.gov/r/1")]
            [Node.elem "img" [("src", "y.png")] []] :: []) =
      extract_visible_text_and_links (fun b h => b ++ h) "" ([Node.text "hello"] ++ []) ∧
    removeEmptyF ([] ++
        Node.elem "a" [("href", "https://x.gov/r/1")]
          [Node.elem "img" [("src", "y.png")] []] :: [Node.text "hello"]) =
      removeEmptyF ([] ++ [Node.text "hello"]) := by
  have hmain := claim8_empty_anchor (fun b h => b ++ h) ""
    [Node.text "hello"] [] [] [Node.text "hello"]
    [("href", "https://x.gov/r/1")] [("href", "https://x.gov/r/1")]
    [Node.elem "img" [("src", "y.png")] []] [Node.elem "img" [("src", "y.png")] []]
    "a" rfl (by simp [get_text_strip, getTextC]) (by simp [hasContentF, getTextC])
    (by decide) (by decide)
  exact ⟨rfl, by simp [get_text_strip, getTextC], by simp [hasContentF, getTextC],
    hmain.1, hmain.2⟩

/-- C9.  The extractor's link inventory is built by splitting every emitted
unit on `" ("`: any plain text node whose stripped text contains `" ("`
contributes the portion after its last `" ("`, with all trailing `")"`
characters stripped, as an inventory entry — whether or not that portion is
a URL. -/
theorem claim9_split_artifact (joinUrl : String → String → String) (base : String)
    (pre post : List Node) (s : String)
    (h : pcontains (pstrip s) " (" = true) :
    prstrip ')' ((psplit (pstrip s) " (").getLastD (pstrip s)) ∈
      (extract_visible_text_and_links joinUrl base (pre ++ Node.text s :: post)).2 := by
  have hne : pstrip s ≠ "" := by
    intro he
    rw [he] at h
    exact absurd h (by decide)
  have hbeq : (pstrip s == "") = false := beq_eq_false_iff_ne.mpr hne
  have hmem : pstrip s ∈ traverseF joinUrl base (pre ++ Node.text s :: post) := by
    rw [traverseF_append]
    refine List.mem_append.mpr (.inr ?_)
    simp only [traverseF, traverseN, hbeq, Bool.false_eq_true, if_false]
    exact List.mem_cons_self _ _
  unfold extract_visible_text_and_links extract_links
  simp only
  rw [List.mem_dedup]
  refine List.mem_filterMap.mpr ⟨pstrip s, hmem, ?_⟩
  rw [if_pos h]

/-- C9, witness: the parenthesised tail of an ordinary sentence, not a URL,
lands in the link inventory. -/
theorem claim9_split_artifact_witness :
    pcontains (pstrip "See the annual report (March 2024)") " (" = true ∧
    prstrip ')'
        ((psplit (pstrip "See the annual report (March 2024)") " (").getLastD
          (pstrip "See the annual report (March 2024)")) = "March 2024" ∧
    "March 2024" ∈
      (extract_visible_text_and_links (fun b h => b ++ h) ""
        ([] ++ Node.text "See the annual report (March 2024)" :: [])).2 := by
  have hmain := claim9_split_artifact (fun b h => b ++ h) "" [] []
    "See the annual report (March 2024)" (by decide)
  refine ⟨by decide, by decide, ?_⟩
  have hval : prstrip ')'
      ((psplit (pstrip "See the annual report (March 2024)") " (").getLastD
        (pstrip "See the annual report (March 2024)")) = "March 2024" := by decide
  rw [← hval]
  exact hmain

/-- C10, witness: a single row whose link cell is NaN. -/
theorem claim10_witness :
    (⟨.na, .str "t", .na, .na, .na⟩ : URow) ∈
      [(⟨.na, .str "t", .na, .na, .na⟩ : URow)] ∧
    (∃ e, fix_links (fun _ _ => 0) [⟨.na, .str "t", .na, .na, .na⟩] [] = .error e ∧
      pstartswith e "AttributeError" = true) ∧
    (df_row []).link = .na := by
  have hmain := claim10_fix_links_raises (fun _ _ => 0)
    [⟨.na, .str "t", .na, .na, .na⟩] []
    ⟨⟨.na, .str "t", .na, .na, .na⟩, by simp, .inl rfl⟩
  exact ⟨by simp, hmain.1, hmain.2 [] rfl⟩

/-! ## Whitespace and stripping toolkit (for the sanitizer round trip) -/

theorem wsOnlyL_append {a b : List Char} (ha : wsOnlyL a) (hb : wsOnlyL b) :
    wsOnlyL (a ++ b) := by
  intro c hc
  rcases List.mem_append.mp hc with h | h
  · exact ha c h
  · exact hb c h

theorem wsOnlyL_spC (i : Nat) : wsOnlyL (spC i) := by
  intro c hc
  rw [List.eq_of_mem_replicate hc]
  rfl

theorem wsOnlyL_newline : wsOnlyL ['\n'] := by
  intro c hc
  simp only [List.mem_singleton] at hc
  rw [hc]
  rfl

theorem wsOnlyL_nil : wsOnlyL [] := by
  intro c hc
  exact absurd hc (List.not_mem_nil c)

theorem dropWhile_ws_append {w : List Char} (l : List Char) (hw : wsOnlyL w) :
    (w ++ l).dropWhile wsChar = l.dropWhile wsChar := by
  induction w with
  | nil => rfl
  | cons c w ih =>
    rw [List.cons_append, List.dropWhile_cons_of_pos (hw c (by simp))]
    exact ih (fun d hd => hw d (List.mem_cons_of_mem c hd))

theorem rdropWhile_ws_append {w : List Char} (l : List Char) (hw : wsOnlyL w) :
    List.rdropWhile wsChar (l ++ w) = List.rdropWhile wsChar l := by
  unfold List.rdropWhile
  rw [List.reverse_append, dropWhile_ws_append _ (fun c hc => hw c (List.mem_reverse.mp hc))]

theorem rdropWhile_append_split (p : Char → Bool) (l₁ l₂ : List Char) :
    List.rdropWhile p (l₁ ++ l₂) =
      if (List.rdropWhile p l₂).isEmpty then List.rdropWhile p l₁
      else l₁ ++ List.rdropWhile p l₂ := by
  have hiff : (List.rdropWhile p l₂).isEmpty = (List.dropWhile p l₂.reverse).isEmpty := by
    unfold List.rdropWhile
    rw [Bool.eq_iff_iff]
    simp [List.isEmpty_iff]
  by_cases h : (List.dropWhile p l₂.reverse).isEmpty = true
  · rw [if_pos (by rw [hiff]; exact h)]
    unfold List.rdropWhile
    rw [List.reverse_append, List.dropWhile_append, if_pos h]
  · rw [if_neg (by rw [hiff]; exact h)]
    unfold List.rdropWhile
    rw [List.reverse_append, List.dropWhile_append, if_neg h, List.reverse_append,
      List.reverse_reverse]

theorem stripC_ws {w : List Char} (hw : wsOnlyL w) : stripC w = [] := by
  unfold stripC
  rw [List.dropWhile_eq_nil_iff.mpr (fun x hx => hw x hx)]
  rfl

theorem stripC_append_left {w : List Char} (l : List Char) (hw : wsOnlyL w) :
    stripC (w ++ l) = stripC l := by
  unfold stripC
  rw [dropWhile_ws_append l hw]

theorem stripC_append_right {w : List Char} (l : List Char) (hw : wsOnlyL w) :
    stripC (l ++ w) = stripC l := by
  unfold stripC
  rw [List.dropWhile_append]
  by_cases h : (List.dropWhile wsChar l).isEmpty
  · rw [if_pos h]
    rw [List.dropWhile_eq_nil_iff.mpr (fun x hx => hw x hx)]
    rw [List.isEmpty_iff.mp h]
  · rw [if_neg h]
    exact rdropWhile_ws_append _ hw

theorem stripC_eq_nil_iff (l : List Char) : stripC l = [] ↔ wsOnlyL l := by
  constructor
  · intro h c hc
    unfold stripC at h
    rw [List.rdropWhile_eq_nil_iff] at h
    rcases List.mem_append.mp
        ((List.takeWhile_append_dropWhile wsChar l) ▸ hc) with h1 | h1
    · exact List.mem_takeWhile_imp h1
    · exact h c h1
  · exact stripC_ws

theorem dropWhile_stripC (l : List Char) :
    List.dropWhile wsChar (stripC l) = stripC l := by
  have hdd : List.dropWhile wsChar (List.dropWhile wsChar l) = List.dropWhile wsChar l :=
    List.dropWhile_idempotent wsChar l
  obtain ⟨t, ht⟩ := List.rdropWhile_prefix wsChar (List.dropWhile wsChar l)
  have key : List.dropWhile wsChar
      (List.rdropWhile wsChar (List.dropWhile wsChar l) ++ t) =
      List.rdropWhile wsChar (List.dropWhile wsChar l) ++ t := by
    rw [ht]
    exact hdd
  rw [List.dropWhile_append] at key
  show List.dropWhile wsChar (List.rdropWhile wsChar (List.dropWhile wsChar l)) =
    List.rdropWhile wsChar (List.dropWhile wsChar l)
  by_cases hcase :
      (List.dropWhile wsChar (List.rdropWhile wsChar (List.dropWhile wsChar l))).isEmpty
  · rw [if_pos hcase] at key
    have h1 : (List.rdropWhile wsChar (List.dropWhile wsChar l)).length = 0 := by
      have hlen := congrArg List.length key
      simp only [List.length_append] at hlen
      have hle := (List.dropWhile_suffix (l := t) wsChar).length_le
      omega
    have h2 : List.rdropWhile wsChar (List.dropWhile wsChar l) = [] :=
      List.eq_nil_of_length_eq_zero h1
    rw [h2]
    rfl
  · rw [if_neg hcase] at key
    exact List.append_cancel_right key

theorem rdropWhile_stripC (l : List Char) :
    List.rdropWhile wsChar (stripC l) = stripC l := by
  show List.rdropWhile wsChar (List.rdropWhile wsChar (List.dropWhile wsChar l)) =
    List.rdropWhile wsChar (List.dropWhile wsChar l)
  exact List.rdropWhile_idempotent wsChar _

theorem stripC_idem (l : List Char) : stripC (stripC l) = stripC l := by
  have h1 := dropWhile_stripC l
  have h2 := rdropWhile_stripC l
  show List.rdropWhile wsChar (List.dropWhile wsChar (stripC l)) = stripC l
  rw [h1, h2]

theorem dropWhile_of_stripped {t : List Char} (h : stripC t = t) :
    List.dropWhile wsChar t = t := by
  conv_lhs => rw [← h]
  rw [dropWhile_stripC, h]

theorem rdropWhile_of_stripped {t : List Char} (h : stripC t = t) :
    List.rdropWhile wsChar t = t := by
  conv_lhs => rw [← h]
  rw [rdropWhile_stripC, h]

theorem dropWhile_stripped_append {t : List Char} (x : List Char)
    (h : stripC t = t) (hne : t ≠ []) :
    List.dropWhile wsChar (t ++ x) = t ++ x := by
  rw [List.dropWhile_append, dropWhile_of_stripped h,
    if_neg (by simpa [List.isEmpty_iff] using hne)]

theorem rdropWhile_stripped_append {t : List Char} (x : List Char)
    (h : stripC t = t) (hne : t ≠ []) :
    List.rdropWhile wsChar (x ++ t) = x ++ t := by
  rw [rdropWhile_append_split, rdropWhile_of_stripped h,
    if_neg (by simpa [List.isEmpty_iff] using hne)]

theorem not_wsOnly_of_stripped {t : List Char} (h : stripC t = t) (hne : t ≠ []) :
    ¬ wsOnlyL t := by
  intro hws
  exact hne (by rw [← h]; exact stripC_ws hws)

theorem escL_append (a b : List Char) : escL (a ++ b) = escL a ++ escL b := by
  simp [escL]

theorem escC_ws {c : Char} (h : wsChar c = true) : escC c = [c] := by
  unfold wsChar at h
  simp only [Bool.or_eq_true, beq_iff_eq] at h
  rcases h with ((h | h) | h) | h <;> subst h <;> rfl

theorem escL_ws {w : List Char} (hw : wsOnlyL w) : escL w = w := by
  induction w with
  | nil => rfl
  | cons c w ih =>
    have h1 : escL (c :: w) = escC c ++ escL w := by simp [escL]
    rw [h1, escC_ws (hw c (by simp)), ih (fun d hd => hw d (List.mem_cons_of_mem c hd))]
    rfl

theorem getTextC_append : ∀ l₁ l₂ : List Node,
    getTextC (l₁ ++ l₂) = getTextC l₁ ++ getTextC l₂
  | [], l₂ => by simp [getTextC]
  | .text s :: cs, l₂ => by
    simp only [List.cons_append, getTextC, List.append_eq, getTextC_append cs l₂,
      List.append_assoc]
  | .elem n a cls :: cs, l₂ => by
    simp only [List.cons_append, getTextC, List.append_eq, getTextC_append cs l₂,
      List.append_assoc]

theorem renderF_append (i : Nat) : ∀ l₁ l₂ : List Node,
    renderF (l₁ ++ l₂) i = renderF l₁ i ++ renderF l₂ i
  | [], l₂ => by simp [renderF]
  | c :: cs, l₂ => by
    simp only [List.cons_append, renderF, List.append_eq, renderF_append i cs l₂,
      List.append_assoc]

theorem getTextC_flushText (t : List Char) : getTextC (flushText t) = stripC t := by
  unfold flushText
  by_cases h : t.isEmpty
  · rw [if_pos h, List.isEmpty_iff.mp h]
    simp [getTextC, stripC]
  · rw [if_neg h]
    simp [getTextC]

theorem renderF_flushText (t : List Char) (i : Nat) :
    renderF (flushText t) i =
      if (stripC t).isEmpty then [] else spC i ++ escL (stripC t) ++ ['\n'] := by
  unfold flushText
  by_cases h : t.isEmpty
  · rw [if_pos h, List.isEmpty_iff.mp h]
    rw [if_pos (by rfl)]
    rfl
  · rw [if_neg h]
    simp [renderF, renderN]

theorem piecesStrC_cons (i : Nat) (p : List Char) (ps : List (List Char)) :
    piecesStrC i (p :: ps) = (spC i ++ p ++ ['\n']) ++ piecesStrC i ps := by
  simp [piecesStrC]

theorem piecesStrC_snoc (i : Nat) (ps : List (List Char)) (t : List Char) :
    piecesStrC i (ps ++ [t]) = piecesStrC i ps ++ (spC i ++ t ++ ['\n']) := by
  simp [piecesStrC]

theorem prenderC_cons (i : Nat) (p : List Char) (ps : List (List Char)) :
    prenderC i (p :: ps) = (spC i ++ escL p ++ ['\n']) ++ prenderC i ps := by
  simp [prenderC]

theorem prenderC_snoc (i : Nat) (ps : List (List Char)) (t : List Char) :
    prenderC i (ps ++ [t]) = prenderC i ps ++ (spC i ++ escL t ++ ['\n']) := by
  simp [prenderC]

theorem interJ_ne_nil (i : Nat) (p : List Char) (ps : List (List Char)) (hp : p ≠ []) :
    interJ i (p :: ps) ≠ [] := by
  cases ps with
  | nil => simpa [interJ] using hp
  | cons q rest =>
    simp only [interJ]
    intro hc
    exact hp (List.append_eq_nil.mp hc).1

theorem dropWhile_piecesStrC (i : Nat) (p : List Char) (ps : List (List Char))
    (hp : stripC p = p) (hpne : p ≠ []) :
    List.dropWhile wsChar (piecesStrC i (p :: ps)) = p ++ '\n' :: piecesStrC i ps := by
  rw [piecesStrC_cons]
  have hshape : (spC i ++ p ++ ['\n']) ++ piecesStrC i ps =
      spC i ++ (p ++ ('\n' :: piecesStrC i ps)) := by
    simp [List.append_assoc]
  rw [hshape, dropWhile_ws_append _ (wsOnlyL_spC i), dropWhile_stripped_append _ hp hpne]

theorem rdropWhile_piecesStrC (i : Nat) :
    ∀ ps : List (List Char), ps ≠ [] → (∀ p ∈ ps, stripC p = p ∧ p ≠ []) →
      List.rdropWhile wsChar (piecesStrC i ps) = spC i ++ interJ i ps
  | [], h, _ => absurd rfl h
  | [p], _, hps => by
    obtain ⟨hp, hpne⟩ := hps p (by simp)
    have hshape : piecesStrC i [p] = (spC i ++ p) ++ ['\n'] := by
      simp [piecesStrC, List.append_assoc]
    rw [hshape, rdropWhile_ws_append _ wsOnlyL_newline,
      rdropWhile_stripped_append _ hp hpne]
    simp [interJ, List.append_assoc]
  | p :: q :: rest, _, hps => by
    have hqs : ∀ x ∈ q :: rest, stripC x = x ∧ x ≠ [] :=
      fun x hx => hps x (List.mem_cons_of_mem p hx)
    have hrec := rdropWhile_piecesStrC i (q :: rest) (by simp) hqs
    have hqne : interJ i (q :: rest) ≠ [] := interJ_ne_nil i q rest (hqs q (by simp)).2
    rw [piecesStrC_cons, rdropWhile_append_split, hrec]
    rw [if_neg (by simp [List.isEmpty_iff, hqne])]
    simp only [interJ]
    simp [List.append_assoc]

theorem stripC_piecesStrC (i : Nat) (ps : List (List Char)) (hne : ps ≠ [])
    (hps : ∀ p ∈ ps, stripC p = p ∧ p ≠ []) :
    stripC (piecesStrC i ps) = interJ i ps := by
  cases ps with
  | nil => exact absurd rfl hne
  | cons p rest =>
    obtain ⟨hp, hpne⟩ := hps p (by simp)
    show List.rdropWhile wsChar (List.dropWhile wsChar (piecesStrC i (p :: rest))) =
      interJ i (p :: rest)
    rw [dropWhile_piecesStrC i p rest hp hpne]
    cases rest with
    | nil =>
      have hshape : p ++ '\n' :: piecesStrC i [] = p ++ ['\n'] := by
        simp [piecesStrC]
      rw [hshape, rdropWhile_ws_append _ wsOnlyL_newline, rdropWhile_of_stripped hp]
      rfl
    | cons q rest' =>
      have hqs : ∀ x ∈ q :: rest', stripC x = x ∧ x ≠ [] :=
        fun x hx => hps x (List.mem_cons_of_mem p (hx))
      have hrec := rdropWhile_piecesStrC i (q :: rest') (by simp) hqs
      have hqne : interJ i (q :: rest') ≠ [] := interJ_ne_nil i q rest' (hqs q (by simp)).2
      have hshape : p ++ '\n' :: piecesStrC i (q :: rest') =
          (p ++ ['\n']) ++ piecesStrC i (q :: rest') := by
        simp
      rw [hshape, rdropWhile_append_split, hrec]
      rw [if_neg (by simp [List.isEmpty_iff, hqne])]
      simp only [interJ]
      simp [List.append_assoc]

theorem prenderC_of_interJ (i : Nat) :
    ∀ ps : List (List Char), ps ≠ [] →
      spC i ++ escL (interJ i ps) ++ ['\n'] = prenderC i ps
  | [], h => absurd rfl h
  | [p], _ => by
    simp [interJ, prenderC]
  | p :: q :: rest, _ => by
    have hrec := prenderC_of_interJ i (q :: rest) (by simp)
    have hinter : interJ i (p :: q :: rest) = p ++ '\n' :: (spC i ++ interJ i (q :: rest)) := rfl
    rw [hinter]
    have hsplit : p ++ '\n' :: (spC i ++ interJ i (q :: rest)) =
        (p ++ ['\n']) ++ spC i ++ interJ i (q :: rest) := by
      simp [List.append_assoc]
    rw [hsplit, escL_append, escL_append, escL_append]
    rw [show escL ['\n'] = ['\n'] from rfl, escL_ws (wsOnlyL_spC i)]
    rw [prenderC_cons, ← hrec]
    simp [List.append_assoc]

theorem renderF_flush_pieces (i : Nat) (w w' : List Char) (ps : List (List Char))
    (hw : wsOnlyL w) (hw' : wsOnlyL w')
    (hps : ∀ p ∈ ps, stripC p = p ∧ p ≠ []) :
    renderF (flushText (w ++ piecesStrC i ps ++ w')) i = prenderC i ps := by
  rw [renderF_flushText, stripC_append_right _ hw', stripC_append_left _ hw]
  cases ps with
  | nil =>
    rw [show piecesStrC i [] = [] from rfl]
    rw [if_pos (by rfl)]
    rfl
  | cons p rest =>
    rw [stripC_piecesStrC i (p :: rest) (by simp) hps]
    rw [if_neg (by simp [List.isEmpty_iff, interJ_ne_nil i p rest (hps p (by simp)).2])]
    exact prenderC_of_interJ i (p :: rest) (by simp)

theorem renderF_reparseF :
    ∀ (cs : List Node) (i : Nat) (w : List Char) (ps : List (List Char)) (fin : List Char),
      wsOnlyL w → wsOnlyL fin → (∀ p ∈ ps, stripC p = p ∧ p ≠ []) →
      renderF (reparseF cs i (w ++ piecesStrC i ps) fin) i = prenderC i ps ++ renderF cs i
  | [], i, w, ps, fin => by
    intro hw hfin hps
    have heq : reparseF [] i (w ++ piecesStrC i ps) fin =
        flushText ((w ++ piecesStrC i ps) ++ fin) := by
      simp only [reparseF]
    rw [heq, renderF_flush_pieces i w fin ps hw hfin hps]
    simp [renderF]
  | .text s :: cs, i, w, ps, fin => by
    intro hw hfin hps
    by_cases ht : (stripC s.data).isEmpty
    · have heq : reparseF (.text s :: cs) i (w ++ piecesStrC i ps) fin =
          reparseF cs i (w ++ piecesStrC i ps) fin := by
        simp only [reparseF]
        rw [if_pos ht]
      have hrn : renderN (.text s) i = [] := by
        simp only [renderN]
        rw [if_pos ht]
      rw [heq, renderF_reparseF cs i w ps fin hw hfin hps]
      simp [renderF, hrn]
    · have hne : stripC s.data ≠ [] := by simpa [List.isEmpty_iff] using ht
      have heq : reparseF (.text s :: cs) i (w ++ piecesStrC i ps) fin =
          reparseF cs i ((w ++ piecesStrC i ps) ++ spC i ++ stripC s.data ++ ['\n']) fin := by
        simp only [reparseF]
        rw [if_neg ht]
      have hpend : (w ++ piecesStrC i ps) ++ spC i ++ stripC s.data ++ ['\n'] =
          w ++ piecesStrC i (ps ++ [stripC s.data]) := by
        rw [piecesStrC_snoc]
        simp [List.append_assoc]
      have hps' : ∀ p ∈ ps ++ [stripC s.data], stripC p = p ∧ p ≠ [] := by
        intro p hp
        rcases List.mem_append.mp hp with h | h
        · exact hps p h
        · simp only [List.mem_singleton] at h
          subst h
          exact ⟨stripC_idem s.data, hne⟩
      have hrn : renderN (.text s) i = spC i ++ escL (stripC s.data) ++ ['\n'] := by
        simp only [renderN]
        rw [if_neg ht]
      rw [heq, hpend, renderF_reparseF cs i w (ps ++ [stripC s.data]) fin hw hfin hps']
      rw [prenderC_snoc]
      simp [renderF, hrn, List.append_assoc]
  | .elem n a cls :: cs, i, w, ps, fin => by
    intro hw hfin hps
    have heq : reparseF (.elem n a cls :: cs) i (w ++ piecesStrC i ps) fin =
        flushText ((w ++ piecesStrC i ps) ++ spC i) ++
          (if n ∈ VOID_TAGS then [Node.elem n a []]
           else [Node.elem n a (reparseF cls (i + 1) ['\n'] (spC i))]) ++
          reparseF cs i ['\n'] fin := by
      simp only [reparseF]
    rw [heq, renderF_append, renderF_append]
    rw [renderF_flush_pieces i w (spC i) ps hw (wsOnlyL_spC i) hps]
    have htail : renderF (reparseF cs i ['\n'] fin) i = renderF cs i := by
      have h0 := renderF_reparseF cs i ['\n'] [] fin wsOnlyL_newline hfin (by simp)
      simpa [piecesStrC, prenderC] using h0
    rw [htail]
    by_cases hv : n ∈ VOID_TAGS
    · rw [if_pos hv]
      have h2 : renderN (Node.elem n a []) i = renderN (Node.elem n a cls) i := by
        simp only [renderN]
        rw [if_pos hv, if_pos hv]
      simp [renderF, h2, List.append_assoc]
    · rw [if_neg hv]
      have hinner : renderF (reparseF cls (i + 1) ['\n'] (spC i)) (i + 1) =
          renderF cls (i + 1) := by
        have h0 := renderF_reparseF cls (i + 1) ['\n'] [] (spC i)
          wsOnlyL_newline (wsOnlyL_spC i) (by simp)
        simpa [piecesStrC, prenderC] using h0
      have h2 : renderN (Node.elem n a (reparseF cls (i + 1) ['\n'] (spC i))) i =
          renderN (Node.elem n a cls) i := by
        simp only [renderN]
        rw [if_neg hv, if_neg hv, hinner]
      simp [renderF, h2, List.append_assoc]

theorem wsOnlyL_of_append_left {a b : List Char} (h : wsOnlyL (a ++ b)) : wsOnlyL a :=
  fun c hc => h c (List.mem_append_left b hc)

theorem wsOnlyL_of_append_right {a b : List Char} (h : wsOnlyL (a ++ b)) : wsOnlyL b :=
  fun c hc => h c (List.mem_append_right a hc)

theorem getTextC_reparseF :
    ∀ (cls : List Node) (i : Nat) (pend fin : List Char),
      wsOnlyL fin → voidOkF cls = true →
      (getTextC (reparseF cls i pend fin) = [] ↔ (wsOnlyL pend ∧ getTextC cls = []))
  | [], i, pend, fin => by
    intro hfin _
    have heq : reparseF [] i pend fin = flushText (pend ++ fin) := by
      simp only [reparseF]
    rw [heq, getTextC_flushText]
    rw [stripC_eq_nil_iff]
    constructor
    · intro h
      exact ⟨wsOnlyL_of_append_left h, by simp [getTextC]⟩
    · intro h
      exact wsOnlyL_append h.1 hfin
  | .text s :: cls, i, pend, fin => by
    intro hfin hvo
    have hvo' : voidOkF cls = true := by simpa [voidOkF] using hvo
    have hrhs : getTextC (Node.text s :: cls) = stripC s.data ++ getTextC cls := by
      simp [getTextC]
    by_cases ht : (stripC s.data).isEmpty
    · have heq : reparseF (.text s :: cls) i pend fin = reparseF cls i pend fin := by
        simp only [reparseF]
        rw [if_pos ht]
      rw [heq, getTextC_reparseF cls i pend fin hfin hvo', hrhs,
        List.isEmpty_iff.mp ht]
      simp
    · have hne : stripC s.data ≠ [] := by simpa [List.isEmpty_iff] using ht
      have heq : reparseF (.text s :: cls) i pend fin =
          reparseF cls i (pend ++ spC i ++ stripC s.data ++ ['\n']) fin := by
        simp only [reparseF]
        rw [if_neg ht]
      rw [heq, getTextC_reparseF cls i _ fin hfin hvo', hrhs]
      constructor
      · intro h
        exfalso
        have hws : wsOnlyL (pend ++ spC i ++ stripC s.data ++ ['\n']) := h.1
        have : wsOnlyL (stripC s.data) :=
          wsOnlyL_of_append_right (wsOnlyL_of_append_left hws)
        exact not_wsOnly_of_stripped (stripC_idem s.data) hne this
      · intro h
        exfalso
        exact hne (List.append_eq_nil.mp h.2).1
  | .elem n a cls₀ :: cls, i, pend, fin => by
    intro hfin hvo
    have hvo3 : (if n ∈ VOID_TAGS then cls₀.isEmpty else true) = true ∧
        voidOkF cls₀ = true ∧ voidOkF cls = true := by
      have h0 := hvo
      simp only [voidOkF, Bool.and_eq_true] at h0
      exact ⟨h0.1.1, h0.1.2, h0.2⟩
    have heq : reparseF (.elem n a cls₀ :: cls) i pend fin =
        flushText (pend ++ spC i) ++
          (if n ∈ VOID_TAGS then [Node.elem n a []]
           else [Node.elem n a (reparseF cls₀ (i + 1) ['\n'] (spC i))]) ++
          reparseF cls i ['\n'] fin := by
      simp only [reparseF]
    rw [heq, getTextC_append, getTextC_append, getTextC_flushText,
      stripC_append_right _ (wsOnlyL_spC i)]
    have htail := getTextC_reparseF cls i ['\n'] fin hfin hvo3.2.2
    have helem : getTextC (if n ∈ VOID_TAGS then [Node.elem n a []]
        else [Node.elem n a (reparseF cls₀ (i + 1) ['\n'] (spC i))]) = [] ↔
        getTextC cls₀ = [] := by
      by_cases hv : n ∈ VOID_TAGS
      · rw [if_pos hv]
        have hnil : cls₀ = [] := by
          have := hvo3.1
          rw [if_pos hv] at this
          exact List.isEmpty_iff.mp this
        subst hnil
        simp [getTextC]
      · rw [if_neg hv]
        have hin := getTextC_reparseF cls₀ (i + 1) ['\n'] (spC i)
          (wsOnlyL_spC i) hvo3.2.1
        have hx : getTextC [Node.elem n a (reparseF cls₀ (i + 1) ['\n'] (spC i))] =
            getTextC (reparseF cls₀ (i + 1) ['\n'] (spC i)) := by
          simp [getTextC]
        rw [hx, hin]
        simp [wsOnlyL_newline]
    have hrhs : getTextC (Node.elem n a cls₀ :: cls) = getTextC cls₀ ++ getTextC cls := by
      simp [getTextC]
    rw [hrhs]
    constructor
    · intro h
      obtain ⟨h1, h2, h3⟩ : stripC pend = [] ∧
          getTextC (if n ∈ VOID_TAGS then [Node.elem n a []]
            else [Node.elem n a (reparseF cls₀ (i + 1) ['\n'] (spC i))]) = [] ∧
          getTextC (reparseF cls i ['\n'] fin) = [] := by
        simpa [List.append_assoc] using h
      refine ⟨(stripC_eq_nil_iff pend).mp h1, ?_⟩
      rw [(helem.mp h2), (htail.mp h3).2]
      rfl
    · intro h
      obtain ⟨hc0, hc⟩ := List.append_eq_nil.mp h.2
      rw [(stripC_eq_nil_iff pend).mpr h.1, helem.mpr hc0,
        htail.mpr ⟨wsOnlyL_newline, hc⟩]
      rfl

theorem noKindsF_append : ∀ l₁ l₂ : List Node,
    noKindsF (l₁ ++ l₂) = (noKindsF l₁ && noKindsF l₂)
  | [], l₂ => by simp [noKindsF]
  | .text s :: cs, l₂ => by
    simp only [List.cons_append, noKindsF, noKindsF_append cs l₂]
  | .elem n a cls :: cs, l₂ => by
    simp only [List.cons_append, noKindsF, noKindsF_append cs l₂, Bool.and_assoc]

theorem noKindsF_removeKindsF : ∀ cs : List Node, noKindsF (removeKindsF cs) = true
  | [] => by simp [removeKindsF, noKindsF]
  | .text s :: cs => by
    simp only [removeKindsF, noKindsF]
    exact noKindsF_removeKindsF cs
  | .elem n a cls :: cs => by
    by_cases hk : n ∈ TAGS_TO_REMOVE
    · simp only [removeKindsF, if_pos hk]
      exact noKindsF_removeKindsF cs
    · simp only [removeKindsF, if_neg hk, noKindsF, Bool.and_eq_true]
      exact ⟨⟨by simp [hk], noKindsF_removeKindsF cls⟩, noKindsF_removeKindsF cs⟩

theorem removeKindsF_of_noKinds : ∀ cs : List Node,
    noKindsF cs = true → removeKindsF cs = cs
  | [] => fun _ => by simp [removeKindsF]
  | .text s :: cs => by
    intro h
    simp only [noKindsF] at h
    simp only [removeKindsF, removeKindsF_of_noKinds cs h]
  | .elem n a cls :: cs => by
    intro h
    simp only [noKindsF, Bool.and_eq_true] at h
    have hk : ¬ n ∈ TAGS_TO_REMOVE := by
      intro hc
      have h0 := h.1.1
      rw [if_pos hc] at h0
      exact absurd h0 (by simp)
    simp only [removeKindsF, if_neg hk, removeKindsF_of_noKinds cls h.1.2,
      removeKindsF_of_noKinds cs h.2]

theorem noKindsF_removeEmptyF : ∀ cs : List Node,
    noKindsF cs = true → noKindsF (removeEmptyF cs) = true
  | [] => fun _ => by simp [removeEmptyF, noKindsF]
  | .text s :: cs => by
    intro h
    simp only [noKindsF] at h
    simp only [removeEmptyF, noKindsF]
    exact noKindsF_removeEmptyF cs h
  | .elem n a cls :: cs => by
    intro h
    simp only [noKindsF, Bool.and_eq_true] at h
    by_cases hc : (hasContentF cls || (n == "br" || n == "hr")) = true
    · simp only [removeEmptyF, hc, if_true, noKindsF, Bool.and_eq_true]
      exact ⟨⟨h.1.1, noKindsF_removeEmptyF cls h.1.2⟩, noKindsF_removeEmptyF cs h.2⟩
    · rw [Bool.not_eq_true] at hc
      simp only [removeEmptyF, hc, Bool.false_eq_true, if_false]
      exact noKindsF_removeEmptyF cs h.2

theorem noKindsF_flushText (t : List Char) : noKindsF (flushText t) = true := by
  unfold flushText
  by_cases h : t.isEmpty
  · rw [if_pos h]
    simp [noKindsF]
  · rw [if_neg h]
    simp [noKindsF]

theorem noKindsF_reparseF :
    ∀ (cs : List Node) (i : Nat) (pend fin : List Char),
      noKindsF cs = true → noKindsF (reparseF cs i pend fin) = true
  | [], i, pend, fin => by
    intro _
    have heq : reparseF [] i pend fin = flushText (pend ++ fin) := by
      simp only [reparseF]
    rw [heq]
    exact noKindsF_flushText _
  | .text s :: cs, i, pend, fin => by
    intro h
    simp only [noKindsF] at h
    by_cases ht : (stripC s.data).isEmpty
    · have heq : reparseF (.text s :: cs) i pend fin = reparseF cs i pend fin := by
        simp only [reparseF]
        rw [if_pos ht]
      rw [heq]
      exact noKindsF_reparseF cs i pend fin h
    · have heq : reparseF (.text s :: cs) i pend fin =
          reparseF cs i (pend ++ spC i ++ stripC s.data ++ ['\n']) fin := by
        simp only [reparseF]
        rw [if_neg ht]
      rw [heq]
      exact noKindsF_reparseF cs i _ fin h
  | .elem n a cls :: cs, i, pend, fin => by
    intro h
    simp only [noKindsF, Bool.and_eq_true] at h
    have heq : reparseF (.elem n a cls :: cs) i pend fin =
        flushText (pend ++ spC i) ++
          (if n ∈ VOID_TAGS then [Node.elem n a []]
           else [Node.elem n a (reparseF cls (i + 1) ['\n'] (spC i))]) ++
          reparseF cs i ['\n'] fin := by
      simp only [reparseF]
    rw [heq, noKindsF_append, noKindsF_append]
    rw [noKindsF_flushText, noKindsF_reparseF cs i ['\n'] fin h.2]
    have helem : noKindsF (if n ∈ VOID_TAGS then [Node.elem n a []]
        else [Node.elem n a (reparseF cls (i + 1) ['\n'] (spC i))]) = true := by
      by_cases hv : n ∈ VOID_TAGS
      · rw [if_pos hv]
        simp only [noKindsF, Bool.and_eq_true]
        exact ⟨⟨h.1.1, by simp [noKindsF]⟩, by simp [noKindsF]⟩
      · rw [if_neg hv]
        simp only [noKindsF, Bool.and_eq_true]
        exact ⟨⟨h.1.1, noKindsF_reparseF cls (i + 1) ['\n'] (spC i) h.1.2⟩,
          by simp [noKindsF]⟩
    rw [helem]
    rfl

theorem getTextC_removeEmptyF : ∀ cs : List Node,
    getTextC (removeEmptyF cs) = getTextC cs
  | [] => by simp [removeEmptyF]
  | .text s :: cs => by
    simp only [removeEmptyF, getTextC, getTextC_removeEmptyF cs]
  | .elem n a cls :: cs => by
    by_cases hc : (hasContentF cls || (n == "br" || n == "hr")) = true
    · simp only [removeEmptyF, hc, if_true, getTextC, getTextC_removeEmptyF cls,
        getTextC_removeEmptyF cs]
    · rw [Bool.not_eq_true] at hc
      have hempty : getTextC cls = [] := by
        have h1 : hasContentF cls = false := by
          rcases Bool.or_eq_false_iff.mp hc with ⟨h1, _⟩
          exact h1
        unfold hasContentF at h1
        simpa [List.isEmpty_iff] using h1
      simp only [removeEmptyF, hc, Bool.false_eq_true, if_false, getTextC,
        getTextC_removeEmptyF cs, hempty, List.nil_append]

theorem hasContentF_removeEmptyF (cls : List Node) :
    hasContentF (removeEmptyF cls) = hasContentF cls := by
  unfold hasContentF
  rw [getTextC_removeEmptyF]

theorem allKeptF_removeEmptyF : ∀ cs : List Node, allKeptF (removeEmptyF cs) = true
  | [] => by simp [removeEmptyF, allKeptF]
  | .text s :: cs => by
    simp only [removeEmptyF, allKeptF]
    exact allKeptF_removeEmptyF cs
  | .elem n a cls :: cs => by
    by_cases hc : (hasContentF cls || (n == "br" || n == "hr")) = true
    · simp only [removeEmptyF, hc, if_true, allKeptF, Bool.and_eq_true]
      refine ⟨⟨?_, allKeptF_removeEmptyF cls⟩, allKeptF_removeEmptyF cs⟩
      rw [hasContentF_removeEmptyF]
      exact hc
    · rw [Bool.not_eq_true] at hc
      simp only [removeEmptyF, hc, Bool.false_eq_true, if_false]
      exact allKeptF_removeEmptyF cs

theorem voidOkF_removeKindsF : ∀ cs : List Node,
    voidOkF cs = true → voidOkF (removeKindsF cs) = true
  | [] => fun _ => by simp [removeKindsF, voidOkF]
  | .text s :: cs => by
    intro h
    simp only [voidOkF] at h
    simp only [removeKindsF, voidOkF]
    exact voidOkF_removeKindsF cs h
  | .elem n a cls :: cs => by
    intro h
    simp only [voidOkF, Bool.and_eq_true] at h
    by_cases hk : n ∈ TAGS_TO_REMOVE
    · simp only [removeKindsF, if_pos hk]
      exact voidOkF_removeKindsF cs h.2
    · simp only [removeKindsF, if_neg hk, voidOkF, Bool.and_eq_true]
      refine ⟨⟨?_, voidOkF_removeKindsF cls h.1.2⟩, voidOkF_removeKindsF cs h.2⟩
      by_cases hv : n ∈ VOID_TAGS
      · rw [if_pos hv]
        have := h.1.1
        rw [if_pos hv] at this
        rw [List.isEmpty_iff.mp this]
        simp [removeKindsF]
      · rw [if_neg hv]

theorem voidOkF_removeEmptyF : ∀ cs : List Node,
    voidOkF cs = true → voidOkF (removeEmptyF cs) = true
  | [] => fun _ => by simp [removeEmptyF, voidOkF]
  | .text s :: cs => by
    intro h
    simp only [voidOkF] at h
    simp only [removeEmptyF, voidOkF]
    exact voidOkF_removeEmptyF cs h
  | .elem n a cls :: cs => by
    intro h
    simp only [voidOkF, Bool.and_eq_true] at h
    by_cases hc : (hasContentF cls || (n == "br" || n == "hr")) = true
    · simp only [removeEmptyF, hc, if_true, voidOkF, Bool.and_eq_true]
      refine ⟨⟨?_, voidOkF_removeEmptyF cls h.1.2⟩, voidOkF_removeEmptyF cs h.2⟩
      by_cases hv : n ∈ VOID_TAGS
      · rw [if_pos hv]
        have := h.1.1
        rw [if_pos hv] at this
        rw [List.isEmpty_iff.mp this]
        simp [removeEmptyF]
      · rw [if_neg hv]
    · rw [Bool.not_eq_true] at hc
      simp only [removeEmptyF, hc, Bool.false_eq_true, if_false]
      exact voidOkF_removeEmptyF cs h.2

theorem removeEmptyF_flushText (t : List Char) :
    removeEmptyF (flushText t) = flushText t := by
  unfold flushText
  by_cases h : t.isEmpty
  · rw [if_pos h]
    simp [removeEmptyF]
  · rw [if_neg h]
    simp [removeEmptyF]

theorem removeEmptyF_reparseF :
    ∀ (ds : List Node) (i : Nat) (pend fin : List Char),
      wsOnlyL fin → allKeptF ds = true → voidOkF ds = true →
      removeEmptyF (reparseF ds i pend fin) = reparseF ds i pend fin
  | [], i, pend, fin => by
    intro _ _ _
    have heq : reparseF [] i pend fin = flushText (pend ++ fin) := by
      simp only [reparseF]
    rw [heq, removeEmptyF_flushText]
  | .text s :: ds, i, pend, fin => by
    intro hfin hak hvo
    simp only [allKeptF] at hak
    simp only [voidOkF] at hvo
    by_cases ht : (stripC s.data).isEmpty
    · have heq : reparseF (.text s :: ds) i pend fin = reparseF ds i pend fin := by
        simp only [reparseF]
        rw [if_pos ht]
      rw [heq]
      exact removeEmptyF_reparseF ds i pend fin hfin hak hvo
    · have heq : reparseF (.text s :: ds) i pend fin =
          reparseF ds i (pend ++ spC i ++ stripC s.data ++ ['\n']) fin := by
        simp only [reparseF]
        rw [if_neg ht]
      rw [heq]
      exact removeEmptyF_reparseF ds i _ fin hfin hak hvo
  | .elem n a cls :: ds, i, pend, fin => by
    intro hfin hak hvo
    simp only [allKeptF, Bool.and_eq_true] at hak
    simp only [voidOkF, Bool.and_eq_true] at hvo
    have heq : reparseF (.elem n a cls :: ds) i pend fin =
        flushText (pend ++ spC i) ++
          (if n ∈ VOID_TAGS then [Node.elem n a []]
           else [Node.elem n a (reparseF cls (i + 1) ['\n'] (spC i))]) ++
          reparseF ds i ['\n'] fin := by
      simp only [reparseF]
    rw [heq, removeEmptyF_append, removeEmptyF_append, removeEmptyF_flushText,
      removeEmptyF_reparseF ds i ['\n'] fin hfin hak.2 hvo.2]
    have helem : removeEmptyF (if n ∈ VOID_TAGS then [Node.elem n a []]
        else [Node.elem n a (reparseF cls (i + 1) ['\n'] (spC i))]) =
        (if n ∈ VOID_TAGS then [Node.elem n a []]
         else [Node.elem n a (reparseF cls (i + 1) ['\n'] (spC i))]) := by
      by_cases hv : n ∈ VOID_TAGS
      · rw [if_pos hv]
        have hnil : cls = [] := by
          have := hvo.1.1
          rw [if_pos hv] at this
          exact List.isEmpty_iff.mp this
        have hbr : (n == "br" || n == "hr") = true := by
          have h1 := hak.1.1
          rw [hnil] at h1
          have h2 : hasContentF ([] : List Node) = false := by
            simp [hasContentF, getTextC]
          rw [h2] at h1
          simpa using h1
        have hcond : (hasContentF ([] : List Node) || (n == "br" || n == "hr")) = true := by
          rw [hbr]
          simp
        simp only [removeEmptyF, hcond, if_true]
      · rw [if_neg hv]
        have hsplit : hasContentF cls = true ∨ (n == "br" || n == "hr") = true := by
          have h0 := hak.1.1
          rw [Bool.or_eq_true] at h0
          exact h0
        have hcont : hasContentF cls = true := by
          rcases hsplit with h1 | h1
          · exact h1
          · exfalso
            rw [Bool.or_eq_true] at h1
            rcases h1 with h2 | h2
            · exact hv (by rw [beq_iff_eq.mp h2]; decide)
            · exact hv (by rw [beq_iff_eq.mp h2]; decide)
        have hneCls : getTextC cls ≠ [] := by
          intro hc
          unfold hasContentF at hcont
          rw [hc] at hcont
          simp at hcont
        have hiff := getTextC_reparseF cls (i + 1) ['\n'] (spC i)
          (wsOnlyL_spC i) hvo.1.2
        have hneR : getTextC (reparseF cls (i + 1) ['\n'] (spC i)) ≠ [] :=
          fun hc => hneCls (hiff.mp hc).2
        have hcontR : hasContentF (reparseF cls (i + 1) ['\n'] (spC i)) = true := by
          unfold hasContentF
          simpa [List.isEmpty_iff] using hneR
        simp only [removeEmptyF, hcontR, Bool.true_or, if_true]
        rw [removeEmptyF_reparseF cls (i + 1) ['\n'] (spC i)
          (wsOnlyL_spC i) hak.1.2 hvo.1.2]
    rw [helem]

/-- C7.  `ContentSanitizer` is idempotent: re-sanitizing the sanitizer's own
prettified output yields the same string.  `reparseTop` is the model of the
external `BeautifulSoup(..., "html.parser")` parse applied to a prettified
document (merged text runs, escapes undone, childless void elements); the
hypothesis says void elements of the input forest are childless, which every
parser-built tree satisfies. -/
theorem claim7_sanitize_idempotent (cs : List Node) (hvoid : voidOkF cs = true) :
    clean_html_content (reparseTop (sanitizeF cs)) = clean_html_content cs := by
  have hak : allKeptF (sanitizeF cs) = true := allKeptF_removeEmptyF _
  have hnk : noKindsF (sanitizeF cs) = true :=
    noKindsF_removeEmptyF _ (noKindsF_removeKindsF cs)
  have hvo : voidOkF (sanitizeF cs) = true :=
    voidOkF_removeEmptyF _ (voidOkF_removeKindsF cs hvoid)
  have h1 : removeKindsF (reparseTop (sanitizeF cs)) = reparseTop (sanitizeF cs) :=
    removeKindsF_of_noKinds _ (noKindsF_reparseF _ 0 [] [] hnk)
  have h2 : removeEmptyF (reparseTop (sanitizeF cs)) = reparseTop (sanitizeF cs) :=
    removeEmptyF_reparseF _ 0 [] [] wsOnlyL_nil hak hvo
  have h3 : sanitizeF (reparseTop (sanitizeF cs)) = reparseTop (sanitizeF cs) := by
    show removeEmptyF (removeKindsF (reparseTop (sanitizeF cs))) = reparseTop (sanitizeF cs)
    rw [h1, h2]
  have h4 : renderF (reparseTop (sanitizeF cs)) 0 = renderF (sanitizeF cs) 0 := by
    have h0 := renderF_reparseF (sanitizeF cs) 0 [] [] [] wsOnlyL_nil wsOnlyL_nil (by simp)
    simpa [reparseTop, piecesStrC, prenderC] using h0
  show prettify (sanitizeF (reparseTop (sanitizeF cs))) = prettify (sanitizeF cs)
  rw [h3]
  show String.mk (renderF (reparseTop (sanitizeF cs)) 0) =
    String.mk (renderF (sanitizeF cs) 0)
  rw [h4]

/-- C7, witness: a small document with a removable nav element, an empty
paragraph and real text. -/
theorem claim7_witness :
    voidOkF [Node.elem "div" [("class", "x")]
        [Node.text "  hello  ", Node.elem "nav" [] [Node.text "menu"],
         Node.elem "p" [] []]] = true ∧
    clean_html_content (reparseTop (sanitizeF
        [Node.elem "div" [("class", "x")]
          [Node.text "  hello  ", Node.elem "nav" [] [Node.text "menu"],
           Node.elem "p" [] []]])) =
      clean_html_content
        [Node.elem "div" [("class", "x")]
          [Node.text "  hello  ", Node.elem "nav" [] [Node.text "menu"],
           Node.elem "p" [] []]] := by
  have hv : voidOkF [Node.elem "div" [("class", "x")]
      [Node.text "  hello  ", Node.elem "nav" [] [Node.text "menu"],
       Node.elem "p" [] []]] = true := by
    simp [voidOkF, VOID_TAGS]
  exact ⟨hv, claim7_sanitize_idempotent _ hv⟩

end HScan
